import Mathlib

/-!
Verification of the documentation-sync core: a shallow embedding of
`src/lib/context.js` (navigation traversal, section inference) and
`src/lib/confluence-syncer.js` (home sync, level-order reconciliation
engine, cleanup), with theorems settling the specification claims.

Paths are POSIX strings (separator `/`), as in the source's runtime.
Machine-level details that the source delegates to collaborators that are
not part of this repository's sources (the page models' `sync` and
`repoConflict`, the remote store SDK) are modelled from the spec where
noted.
-/

namespace DocsSync

/-! ## String and path utilities (POSIX, as used by the source) -/

/-- Whether string `p` starts with string `pre` (JS `String.prototype.startsWith`). -/
def strStartsWith (p pre : String) : Bool :=
  List.isPrefixOf pre.data p.data

/-- Index of the first occurrence of `pat` in `s`, if any (JS `String.prototype.indexOf`). -/
def findSub (pat : List Char) : List Char → Option Nat
  | [] => if pat.isEmpty then some 0 else none
  | c :: cs =>
    if List.isPrefixOf pat (c :: cs) then some 0
    else (findSub pat cs).map (· + 1)

/-- Index of the last occurrence of character `c` in the list, if any. -/
def lastIdxOf (c : Char) : List Char → Option Nat
  | [] => none
  | x :: xs =>
    match lastIdxOf c xs with
    | some i => some (i + 1)
    | none => if x = c then some 0 else none

/-- Node's `path.dirname` for POSIX paths that do not end in a slash:
everything before the last `/`, `"."` when there is none, `"/"` when the
last slash is leading. -/
def dirnameChars (cs : List Char) : List Char :=
  match lastIdxOf '/' cs with
  | none => ".".data
  | some 0 => "/".data
  | some i => cs.take i

/-- Split a character list on `/` (JS `String.prototype.split(path.sep)`). -/
def splitSlash : List Char → List (List Char)
  | [] => [[]]
  | c :: cs =>
    let rest := splitSlash cs
    if c = '/' then [] :: rest
    else
      match rest with
      | [] => [[c]]
      | r :: rs => (c :: r) :: rs

/-- Join character lists with `/` (JS `Array.prototype.join(path.sep)`). -/
def joinSlash : List (List Char) → List Char
  | [] => []
  | [p] => p
  | p :: ps => p ++ '/' :: joinSlash ps

/-- JS `String.prototype.trim`: strip leading and trailing whitespace. -/
def strTrim (s : String) : String :=
  ⟨((s.data.dropWhile Char.isWhitespace).reverse.dropWhile Char.isWhitespace).reverse⟩

/-- Drop the first `n` characters of a string. -/
def strDrop (n : Nat) (s : String) : String :=
  ⟨s.data.drop n⟩

/-- Node's `path.resolve(basePath, ...parts)` for the source's only use:
`basePath = '.'` (so resolution is against the working directory) and
relative `parts`. -/
def resolveUnder (cwd : String) (parts : List String) : String :=
  cwd ++ "/" ++ String.intercalate "/" parts

/-- Node's `path.relative(cwd, p)` for the case kept by the source: `p`
located under `cwd`. -/
def relativeTo (cwd p : String) : String :=
  if strStartsWith p (cwd ++ "/") then strDrop (cwd.length + 1) p else p

/-! ## Data model (`src/lib/models`, spec section 3) -/

/-- Source metadata recorded on a page: repository url, source-relative
path, content hash (`new Meta(repo_url, relPath, sha)`). -/
structure Meta where
  repo : String
  path : String
  sha : String
deriving DecidableEq, Repr

/-- A local documentation page (`LocalPage`): display title, source meta,
and the enclosing section name (`parentPath`, `null` for root level). -/
structure LocalPage where
  title : String
  meta : Meta
  parentPath : Option String
deriving DecidableEq, Repr

/-- A page already present in the remote store. Modelled from the spec:
`id` (opaque remote identifier), `title` (remote display title), `path`
(recorded source path, the key of the children mapping), `repo` (the
source-repo provenance used for conflict detection). -/
structure RemotePage where
  id : Nat
  title : String
  path : String
  repo : String
deriving DecidableEq, Repr

/-! ## File-system environment for the Tree Builder -/

/-- The ambient process state `context.js` reads: the working directory
(`process.cwd()`), the file-existence check (`existsSync`), the content
hash (`util.fileHash`), and the configured title prefix
(`config.confluence.titlePrefix`). -/
structure FsEnv where
  cwd : String
  fileExists : String → Bool
  hash : String → String
  titlePre : String

/-! ## `getPage` (`src/lib/context.js:78`) -/

/-- `getPage(repo_url, title, pagePath, titlePrefix)`: reject paths not
under the working directory, reject missing files (warn and return
nothing), otherwise build a `LocalPage` whose title is the trimmed
prefixed title and whose meta path is the cwd-relative path. -/
def getPage (env : FsEnv) (repo title pagePath pre : String) : Option LocalPage :=
  let safe := strStartsWith pagePath env.cwd
  let ex := safe && env.fileExists pagePath
  if ex then
    some { title := strTrim (pre ++ " " ++ title),
           meta := { repo := repo, path := relativeTo env.cwd pagePath,
                     sha := env.hash pagePath },
           parentPath := none }
  else
    none

/-! ## Navigation description and `traverse` (`src/lib/context.js:47`) -/

mutual
/-- One entry of the `nav` sequence: a bare string (an input error), a
leaf `{title: filePath}`, or a section `{title: [nested]}`. -/
inductive NavItem where
  | bare : String → NavItem
  | leaf : String → String → NavItem
  | sec : String → NavForest → NavItem

/-- An ordered sequence of navigation entries. -/
inductive NavForest where
  | nil : NavForest
  | cons : NavItem → NavForest → NavForest
end

/-- Mutable traversal state: the accumulated page list and the section
hierarchy map (section name to parent section name). -/
structure TState where
  pages : List LocalPage
  hier : List (String × Option String)
deriving DecidableEq, Repr

/-- JS `Map.prototype.set`: replace the value in place when the key is
present (keys are unique, so replacing the first occurrence suffices),
append otherwise. -/
def mapSet : List (String × Option String) → String → Option String →
    List (String × Option String)
  | [], k, v => [(k, v)]
  | kv :: rest, k, v =>
    if kv.1 == k then (k, v) :: rest else kv :: mapSet rest k v

mutual
/-- `traverse` on one `nav` entry: a bare string throws (`ConfigError`),
a leaf resolves its file under `docs/` and appends the page when it
exists, a section records `sectionName → parentSection` and recurses with
itself as the enclosing section. -/
def traverseItem (env : FsEnv) (repo : String) :
    NavItem → Option String → TState → Except Unit TState
  | NavItem.bare _, _, _ => Except.error ()
  | NavItem.leaf title p, parentSection, st =>
    match getPage env repo title (resolveUnder env.cwd ["docs", p]) env.titlePre with
    | none => Except.ok st
    | some pg =>
      Except.ok { st with pages := st.pages ++ [{ pg with parentPath := parentSection }] }
  | NavItem.sec title kids, parentSection, st =>
    traverseForest env repo kids (some title)
      { st with hier := mapSet st.hier title parentSection }

/-- `traverse` on a `nav` sequence, left to right, aborting on the first
input error. -/
def traverseForest (env : FsEnv) (repo : String) :
    NavForest → Option String → TState → Except Unit TState
  | NavForest.nil, _, st => Except.ok st
  | NavForest.cons i rest, parentSection, st =>
    match traverseItem env repo i parentSection st with
    | Except.error e => Except.error e
    | Except.ok st1 => traverseForest env repo rest parentSection st1
end

/-! ## `inferSectionDirectory` (`src/lib/context.js:172`) -/

/-- The per-child path preprocessing of `inferSectionDirectory`: find the
first occurrence of `'/docs/'` in the child's recorded path, drop through
it, and take `path.dirname` of the remainder; children whose path has no
`'/docs/'` yield nothing. -/
def relDirChars (full : List Char) : Option (List Char) :=
  match findSub "/docs/".data full with
  | none => none
  | some i => some (dirnameChars (full.drop (i + 6)))

/-- The descending-length loop of `inferSectionDirectory`: for `len`
from `n` down to `1`, join the first `len` components of the first
child's directory and return it as soon as it is a string prefix of
every candidate directory. -/
def firstMatchLen (parts : List (List Char)) (rel : List (List Char)) :
    Nat → Option (List Char)
  | 0 => none
  | n + 1 =>
    let pre := joinSlash (parts.take (n + 1))
    if rel.all (fun p2 => List.isPrefixOf pre p2) then some pre
    else firstMatchLen parts rel n

/-- The directory-selection core of `inferSectionDirectory`, applied to
the surviving candidate directories: nothing when no candidate survives;
the first candidate when all are equal; otherwise the prefix-truncation
loop over the first candidate's components. -/
def inferCore (rel : List (List Char)) : Option String :=
  match rel with
  | [] => none
  | first :: _ =>
    if rel.all (fun p2 => p2 == first) then some ⟨first⟩
    else (firstMatchLen (splitSlash first) rel (splitSlash first).length).map
      (fun cs => (⟨cs⟩ : String))

/-- `inferSectionDirectory(children)`: preprocess each child's recorded
path with `relDirChars` and select the common directory from the
surviving candidates. -/
def inferSectionDirectory (children : List LocalPage) : Option String :=
  if children.isEmpty then none
  else inferCore (children.filterMap (fun c => relDirChars c.meta.path.data))

/-! ## `createSectionPages` (`src/lib/context.js:137`) -/

/-- The body of one `createSectionPages` loop iteration for the
hierarchy entry `kv = (sectionName, parentSection)`: collect the
section's children, skip childless sections, infer the section
directory, and when it is truthy look for `README.md` there; an existing
README yields a section page whose `parentPath` is the section's parent
section. -/
def sectionPageFor (env : FsEnv) (repo : String) (pages : List LocalPage)
    (kv : String × Option String) : List LocalPage :=
  let children := pages.filter (fun p => p.parentPath == some kv.1)
  if children.isEmpty then []
  else
    match inferSectionDirectory children with
    | none => []
    | some d =>
      if d == "" then []
      else
        match getPage env repo kv.1
            (resolveUnder env.cwd ["docs", d, "README.md"]) env.titlePre with
        | none => []
        | some pg => [{ pg with parentPath := kv.2 }]

/-- `createSectionPages(repo_url, basePath, pages, sectionHierarchy)`:
run the loop body over the hierarchy entries in order, accumulating the
synthesized section pages. -/
def createSectionPages (env : FsEnv) (repo : String) (pages : List LocalPage)
    (hier : List (String × Option String)) : List LocalPage :=
  hier.flatMap (sectionPageFor env repo pages)

/-- The page list `getContext` hands to the syncer: the traversed pages
followed by the synthesized section pages
(`pages.push(...sectionPages)`, `src/lib/context.js:104`). Fails exactly
when the traversal hits a bare entry. -/
def contextPages (env : FsEnv) (repo : String) (nav : NavForest) :
    Except Unit (List LocalPage × List (String × Option String)) :=
  match traverseForest env repo nav none ⟨[], []⟩ with
  | Except.error e => Except.error e
  | Except.ok st =>
    Except.ok (st.pages ++ createSectionPages env repo st.pages st.hier, st.hier)

/-! ## Reconciliation engine (`src/lib/confluence-syncer.js:114`) -/

/-- The remote-store collaborator as the engine sees it:
`getChildPages(parentPageId)` keyed by the recorded source path; the
argument is optional because the source passes through whatever
`syncedPages.get(parentKey)` returned, which may be `undefined`. -/
structure Env where
  children : Option Nat → List RemotePage

/-- The grouping key of a page: `page.parentPath || null`
(`src/lib/confluence-syncer.js:124`); the empty string is falsy in JS
and collapses to the root key. -/
def normKey (p : LocalPage) : Option String :=
  match p.parentPath with
  | none => none
  | some s => if s = "" then none else some s

/-- `pagesByParent.get(parentKey)`: the local pages of one level, in
original order. -/
def pagesByParent (L : List LocalPage) (k : Option String) : List LocalPage :=
  L.filter (fun p => normKey p == k)

/-- Truthiness of `sectionPages.get(title)`
(`src/lib/confluence-syncer.js:130,173`): the map holds an entry for a
title exactly when some page claims it as a truthy `parentPath`. -/
def hasKids (L : List LocalPage) (t : String) : Bool :=
  if t = "" then false else L.any (fun p => p.parentPath == some t)

/-- One remote-store operation, tagged with the level key of the
`processLevel` call that issued it. `created k title pid id`: a create of
the local page `title` under parent `pid`, allocated `id`.
`updated k localTitle remoteTitle pid id`: an update of the matched pair.
`deleted k id`: removal of an unmatched remote page. `fetch k pid`: the
level's `getChildPages` call. -/
inductive Event where
  | fetch : Option String → Option Nat → Event
  | created : Option String → String → Option Nat → Nat → Event
  | updated : Option String → String → String → Option Nat → Nat → Event
  | deleted : Option String → Nat → Event
deriving DecidableEq, Repr

/-- The union element of the matching loop
(`src/lib/confluence-syncer.js:145`): an unmatched local page (to be
created), a matched remote page carrying its local page (to be updated),
or a leftover remote page (to be deleted). -/
inductive UnionItem where
  | fresh : LocalPage → UnionItem
  | matched : RemotePage → LocalPage → UnionItem
  | orphan : RemotePage → UnionItem
deriving DecidableEq, Repr

/-- The matching loop: for each local page in order, pair it with the
remote child recorded under its source path, removing the match from the
candidate map; unmatched locals stay creations, and the final remainder
is returned for deletion. -/
def matchPages : List LocalPage → List RemotePage → List UnionItem × List RemotePage
  | [], rem => ([], rem)
  | p :: ps, rem =>
    match rem.find? (fun r => r.path == p.meta.path) with
    | none =>
      let res := matchPages ps rem
      (UnionItem.fresh p :: res.1, res.2)
    | some r =>
      let res := matchPages ps (rem.eraseP (fun r2 => r2.path == p.meta.path))
      (UnionItem.matched r p :: res.1, res.2)

/-- The full per-level union: matched-or-fresh locals in local order,
then the leftover remote pages (`src/lib/confluence-syncer.js:143`). -/
def buildUnion (ps : List LocalPage) (rem : List RemotePage) : List UnionItem :=
  (matchPages ps rem).1 ++ (matchPages ps rem).2.map UnionItem.orphan

/-- Per-run engine state: the `syncedPages` map (front entry wins, as
with `Map.set` overwriting) and the remote store's next fresh id. -/
structure EngSt where
  synced : List (Option String × Nat)
  nextId : Nat
deriving DecidableEq, Repr

/-- `page.sync(renderer, confluence)` for one union element. Modelled
from the spec (the page models are not under `src/`): an unmatched local
page issues a create and the store allocates the next id; a matched pair
issues an update (id unchanged) unless the source-repo check fails, which
aborts with `ConflictError`; a leftover remote page is deleted and yields
no synced record. The `syncedPages.set` guard is the source's truthiness
check `page.title && syncedPage && syncedPage.id`
(`src/lib/confluence-syncer.js:166`); the recorded title is the union
element's own title: the local title for a create, the remote title for
an update. -/
def syncItem (k : Option String) (pid : Option Nat) (st : EngSt) :
    UnionItem → Option (EngSt × Event)
  | UnionItem.fresh p =>
    let i := st.nextId
    some ({ synced := if p.title ≠ "" ∧ i ≠ 0 then (some p.title, i) :: st.synced else st.synced,
            nextId := i + 1 },
          Event.created k p.title pid i)
  | UnionItem.matched r p =>
    if r.repo = p.meta.repo then
      some ({ st with
              synced := if r.title ≠ "" ∧ r.id ≠ 0 then (some r.title, r.id) :: st.synced else st.synced },
            Event.updated k p.title r.title pid r.id)
    else none
  | UnionItem.orphan r => some (st, Event.deleted k r.id)

/-- The level's serialized sync loop (`for...of` with `await`,
`src/lib/confluence-syncer.js:163`): each union element completes before
the next begins; a conflict aborts the run. -/
def syncLevel (k : Option String) (pid : Option Nat) :
    List UnionItem → EngSt → Option (EngSt × List Event)
  | [], st => some (st, [])
  | u :: us, st =>
    match syncItem k pid st u with
    | none => none
    | some (st1, e) =>
      match syncLevel k pid us st1 with
      | none => none
      | some (st2, evs) => some (st2, e :: evs)

/-- The recursion loop over the level's section pages
(`src/lib/confluence-syncer.js:172`): process each child level in
order, sequentially. -/
def goChildren (f : Option String → EngSt → Option (EngSt × List Event)) :
    List String → EngSt → Option (EngSt × List Event)
  | [], st => some (st, [])
  | t :: ts, st =>
    match f (some t) st with
    | none => none
    | some (st1, evs) =>
      match goChildren f ts st1 with
      | none => none
      | some (st2, evs2) => some (st2, evs ++ evs2)

/-- `processLevel(parentKey)` (`src/lib/confluence-syncer.js:137`): look
up the level's remote parent id in `syncedPages`, fetch the remote
children, build the union, sync it serially, then recurse into each
local page of the level that is a section parent. The fuel argument
bounds the recursion depth (the source recursion is unbounded and can
diverge on self-referential keys); exhaustion yields `none`. -/
def processLevel (env : Env) (L : List LocalPage) :
    Nat → Option String → EngSt → Option (EngSt × List Event)
  | 0, _, _ => none
  | Nat.succ fuel, k, st =>
    let pages := pagesByParent L k
    let pid := st.synced.lookup k
    let union := buildUnion pages (env.children pid)
    match syncLevel k pid union st with
    | none => none
    | some (st1, evs) =>
      match goChildren (processLevel env L fuel)
          ((pages.filter (fun p => hasKids L p.title)).map (fun p => p.title)) st1 with
      | none => none
      | some (st2, cevs) => some (st2, (Event.fetch k pid :: evs) ++ cevs)

/-- `syncPages(home, localPages, renderer)`
(`src/lib/confluence-syncer.js:114`): seed `syncedPages` with the home id
under the `null` key and start processing from the root level. `n0` is
the remote store's next fresh id. -/
def runEngine (env : Env) (L : List LocalPage) (home n0 fuel : Nat) :
    Option (EngSt × List Event) :=
  processLevel env L fuel none { synced := [(none, home)], nextId := n0 }

/-! ## Home/root resolver (`src/lib/confluence-syncer.js:70`) -/

/-- The collaborators `syncHome` uses: `findPage` by title, the optional
configured ancestor page title (`config.confluence.parentPage`), and the
id the store would allocate for a fresh home page. -/
structure HomeEnv where
  findPage : String → Option RemotePage
  parentPageCfg : Option String
  newId : Nat

/-- Fatal error taxonomy relevant to the home resolver (spec section 7). -/
inductive SyncErr where
  | configErr : SyncErr
  | conflictErr : SyncErr
deriving DecidableEq, Repr

/-- A mutation issued by the home resolver. -/
inductive HomeEvent where
  | createHome : String → Option Nat → HomeEvent
  | updateHome : Nat → Option Nat → HomeEvent
deriving DecidableEq, Repr

/-- `findParentPage()` (`src/lib/confluence-syncer.js:95`): nothing
configured resolves to no parent; a configured title that does not exist
remotely is a fatal `ConfigError`. -/
def findParentPage (env : HomeEnv) : Except SyncErr (Option Nat) :=
  match env.parentPageCfg with
  | none => Except.ok none
  | some t =>
    match env.findPage t with
    | none => Except.error SyncErr.configErr
    | some p => Except.ok (some p.id)

/-- `syncHome(repo, siteName, localPage, renderer)`
(`src/lib/confluence-syncer.js:70`): synthesize a home page when no
README was loaded, resolve the configured ancestor, look up the remote
page under the site title, fail with `ConflictError` when it belongs to
another repo (`repoConflict`, modelled from the spec: the remote page's
source repo must equal the syncing repository), otherwise update it or
create a fresh home page. Returns the issued mutations and the home id. -/
def syncHome (env : HomeEnv) (repo siteName : String) (readMe : Option LocalPage) :
    List HomeEvent × Except SyncErr Nat :=
  let localPage := match readMe with
    | some lp => lp
    | none => { title := siteName, meta := { repo := repo, path := "", sha := "" },
                parentPath := none }
  match findParentPage env with
  | Except.error e => ([], Except.error e)
  | Except.ok pid =>
    match env.findPage siteName with
    | some r =>
      if r.repo ≠ localPage.meta.repo then ([], Except.error SyncErr.conflictErr)
      else ([HomeEvent.updateHome r.id pid], Except.ok r.id)
    | none => ([HomeEvent.createHome localPage.title pid], Except.ok env.newId)

/-- Outcome of a whole `sync()` run (`src/lib/confluence-syncer.js:18`). -/
inductive RunResult where
  | failedHome : SyncErr → RunResult
  | engineAborted : RunResult
  | completed : List Event → RunResult
deriving DecidableEq, Repr

/-- `sync()`: sync the home page first; a home failure aborts before any
page of the tree is touched; otherwise run the engine seeded with the
home id. -/
def syncRun (henv : HomeEnv) (env : Env) (repo siteName : String)
    (readMe : Option LocalPage) (L : List LocalPage) (n0 fuel : Nat) :
    List HomeEvent × RunResult :=
  match syncHome henv repo siteName readMe with
  | (hevs, Except.error e) => (hevs, RunResult.failedHome e)
  | (hevs, Except.ok home) =>
    match runEngine env L home n0 fuel with
    | none => (hevs, RunResult.engineAborted)
    | some (_, tr) => (hevs, RunResult.completed tr)

/-! ## Cleanup sweeper (`src/lib/confluence-syncer.js:201`) -/

/-- The collaborators `cleanup` uses. -/
structure CleanupEnv where
  findPage : String → Option RemotePage
  children : Option Nat → List RemotePage

/-- Outcome of a cleanup run. -/
inductive CleanupOutcome where
  | nothingToClean : CleanupOutcome
  | cleaned : CleanupOutcome
deriving DecidableEq, Repr

/-- `cleanup()` (`src/lib/confluence-syncer.js:201`): a missing home page
is reported as nothing to clean and the run returns normally with no
deletions; otherwise every direct child is deleted in order, then the
home page. The returned list is the sequence of issued `deletePage`
calls. -/
def cleanup (env : CleanupEnv) (siteName : String) : List Nat × CleanupOutcome :=
  match env.findPage siteName with
  | none => ([], CleanupOutcome.nothingToClean)
  | some home =>
    ((env.children (some home.id)).map (fun r => r.id) ++ [home.id],
     CleanupOutcome.cleaned)

/-! ## Observables of the engine trace -/

/-- The level key an event was issued for. -/
def levelOf : Event → Option String
  | Event.fetch k _ => k
  | Event.created k _ _ _ => k
  | Event.updated k _ _ _ _ => k
  | Event.deleted k _ => k

/-- Whether an event is the create-or-update sync of a local page. -/
def isPageSync : Event → Bool
  | Event.created _ _ _ _ => true
  | Event.updated _ _ _ _ _ => true
  | _ => false

/-- Whether an event is a remote-store mutation issued by the level loop
(a page sync or a deletion, as opposed to a fetch). -/
def isSyncOp : Event → Bool
  | Event.fetch _ _ => false
  | _ => true

/-- The local page title a page-sync event belongs to. -/
def localTitleOf : Event → Option String
  | Event.created _ t _ _ => some t
  | Event.updated _ t _ _ _ => some t
  | _ => none

/-- The remote id a sync event acted on or allocated. -/
def syncIdOf : Event → Option Nat
  | Event.created _ _ _ i => some i
  | Event.updated _ _ _ _ i => some i
  | Event.deleted _ i => some i
  | Event.fetch _ _ => none

/-- The `syncedPages` record an event contributes, mirroring the guard
`page.title && syncedPage && syncedPage.id`: the recorded key is the
union element's own title (local for creates, remote for updates), and
deletions record nothing. -/
def recOf : Event → Option (String × Nat)
  | Event.created _ t _ i => if t ≠ "" ∧ i ≠ 0 then some (t, i) else none
  | Event.updated _ _ rt _ i => if rt ≠ "" ∧ i ≠ 0 then some (rt, i) else none
  | _ => none

/-- The `syncedPages` entries a trace contributes, most recent first. -/
def recsOf (tr : List Event) : List (Option String × Nat) :=
  (tr.filterMap recOf).reverse.map (fun ti => (some ti.1, ti.2))

/-- The level keys fetched during a trace, i.e. one entry per
`processLevel` call executed. -/
def fetchKeys (tr : List Event) : List (Option String) :=
  tr.filterMap (fun e => match e with | Event.fetch k _ => some k | _ => none)

/-! ## The static parent structure of the local page list -/

/-- The first local page carrying a given title (`Map` lookups in the
source are keyed by raw title strings). -/
def pageOfTitle (L : List LocalPage) (t : String) : Option LocalPage :=
  L.find? (fun p => p.title == t)

/-- One step up the static key graph: the level key `some t` is entered
from the level of the page titled `t`. -/
inductive Up (L : List LocalPage) : Option String → Option String → Prop where
  | step : ∀ t p, pageOfTitle L t = some p → Up L (some t) (normKey p)

/-- Iterated `Up`. -/
inductive UpN (L : List LocalPage) : Nat → Option String → Option String → Prop where
  | zero : ∀ k, UpN L 0 k k
  | succ : ∀ {n a b c}, Up L a b → UpN L n b c → UpN L (n + 1) a c

/-- A level key together with its depth: the root key has depth `0`, and
the key `some t` sits one step below the level of the page titled `t`.
Well-founded key chains are exactly those reaching the root. -/
inductive Chain (L : List LocalPage) : Option String → Nat → Prop where
  | root : Chain L none 0
  | node : ∀ {t p d}, pageOfTitle L t = some p → Chain L (normKey p) d →
      Chain L (some t) (d + 1)

/-- The correspondence between a union element and the sync event it
produces at level `k` with parent id `pid`: an unmatched local page
yields a create whose allocated id is at least `lb` (the store's id
counter only grows), a matched pair yields an update at the remote id,
and a leftover remote page yields a deletion. -/
def ItemEvB (k : Option String) (pid : Option Nat) (lb : Nat) :
    UnionItem → Event → Prop
  | UnionItem.fresh p, e => ∃ i, lb ≤ i ∧ e = Event.created k p.title pid i
  | UnionItem.matched r p, e => e = Event.updated k p.title r.title pid r.id
  | UnionItem.orphan r, e => e = Event.deleted k r.id

/-! ## Spec-side definitions (for refinement comparisons only) -/

/-- Longest common prefix of two component lists. -/
def commonPre2 : List (List Char) → List (List Char) → List (List Char)
  | [], _ => []
  | _, [] => []
  | a :: as, b :: bs => if a = b then a :: commonPre2 as bs else []

/-- Longest common prefix of a family of component lists. -/
def commonDirParts : List (List (List Char)) → List (List Char)
  | [] => []
  | d :: ds => ds.foldl commonPre2 d

/-- Modelled from the spec's words, for comparison with
`inferSectionDirectory`: the longest directory prefix shared by all of
the children's resolved paths (component-wise common prefix of the
children's directories), none when the children share no directory. -/
def specCommonDir (children : List LocalPage) : Option String :=
  match children with
  | [] => none
  | _ =>
    let cp := commonDirParts
      (children.map (fun c => splitSlash (dirnameChars c.meta.path.data)))
    if cp.isEmpty then none else some ⟨joinSlash cp⟩

mutual
/-- The section encounters of one `nav` entry in traversal order, each
with the enclosing parent section at that encounter (spec-side, for
stating which encounter a hierarchy binding comes from). -/
def encountersItem : NavItem → Option String → List (String × Option String)
  | NavItem.bare _, _ => []
  | NavItem.leaf _ _, _ => []
  | NavItem.sec t kids, ps => (t, ps) :: encountersForest kids (some t)

/-- The section encounters of a `nav` sequence in traversal order. -/
def encountersForest : NavForest → Option String → List (String × Option String)
  | NavForest.nil, _ => []
  | NavForest.cons i rest, ps => encountersItem i ps ++ encountersForest rest ps
end

/-! # Theorems -/

/-- C7: if the remote page found under the site title has a source repo
different from the syncing repository, the run fails with a
`ConflictError`, no create or update is issued against that remote page,
and the page tree is never processed. -/
theorem c7_conflict_aborts_run (henv : HomeEnv) (env : Env) (repo siteName : String)
    (readMe : Option LocalPage) (L : List LocalPage) (n0 fuel : Nat)
    (pid : Option Nat) (r : RemotePage)
    (hpar : findParentPage henv = Except.ok pid)
    (hfind : henv.findPage siteName = some r)
    (hrepo : r.repo ≠ (match readMe with | some lp => lp.meta.repo | none => repo)) :
    syncHome henv repo siteName readMe = ([], Except.error SyncErr.conflictErr) ∧
    syncRun henv env repo siteName readMe L n0 fuel =
      ([], RunResult.failedHome SyncErr.conflictErr) := by
  have h1 : syncHome henv repo siteName readMe = ([], Except.error SyncErr.conflictErr) := by
    cases readMe with
    | none =>
      simp only at hrepo
      simp [syncHome, hpar, hfind, hrepo]
    | some lp =>
      simp only at hrepo
      simp [syncHome, hpar, hfind, hrepo]
  exact ⟨h1, by unfold syncRun; rw [h1]⟩

/-- C7 witness: a concrete site whose remote home page belongs to a
different repository. -/
theorem c7_conflict_aborts_run_witness :
    syncRun ⟨fun t => if t == "Site" then some ⟨5, "Site", "", "other"⟩ else none, none, 9⟩
        ⟨fun _ => []⟩ "mine" "Site" none [] 1 3 =
      ([], RunResult.failedHome SyncErr.conflictErr) :=
  (c7_conflict_aborts_run
    ⟨fun t => if t == "Site" then some ⟨5, "Site", "", "other"⟩ else none, none, 9⟩
    ⟨fun _ => []⟩ "mine" "Site" none [] 1 3 none ⟨5, "Site", "", "other"⟩
    rfl rfl (by decide)).2

/-- C8: cleanup when no remote page exists under the site title reports
a nothing-to-clean outcome, returns normally, and issues zero delete
calls. -/
theorem c8_cleanup_nothing_to_clean (env : CleanupEnv) (siteName : String)
    (h : env.findPage siteName = none) :
    cleanup env siteName = ([], CleanupOutcome.nothingToClean) := by
  unfold cleanup
  rw [h]

/-- C8 witness: a store with no page under the site title (but with
children it would report for any id) yields no deletions. -/
theorem c8_cleanup_nothing_to_clean_witness :
    cleanup ⟨fun _ => none, fun _ => [⟨9, "X", "p", "r"⟩]⟩ "Site" =
      ([], CleanupOutcome.nothingToClean) :=
  c8_cleanup_nothing_to_clean ⟨fun _ => none, fun _ => [⟨9, "X", "p", "r"⟩]⟩ "Site" rfl

/-- C9: a navigation leaf whose resolved absolute path does not start
with the working directory produces no `LocalPage`, whatever the
file-existence check would say at that path. -/
theorem c9_unsafe_path_skipped (env : FsEnv) (repo title pagePath pre : String)
    (h : strStartsWith pagePath env.cwd = false) :
    getPage env repo title pagePath pre = none := by
  unfold getPage
  simp [h]

/-- C9 witness: every file exists in this environment, yet the page
outside the working directory is still skipped. -/
theorem c9_unsafe_path_skipped_witness :
    (⟨"/w", fun _ => true, fun _ => "h", ""⟩ : FsEnv).fileExists "/other/docs/a.md" = true ∧
    getPage ⟨"/w", fun _ => true, fun _ => "h", ""⟩ "r" "A" "/other/docs/a.md" "" = none :=
  ⟨rfl, c9_unsafe_path_skipped ⟨"/w", fun _ => true, fun _ => "h", ""⟩ "r" "A"
    "/other/docs/a.md" "" (by decide)⟩

theorem mapSet_lookup_self (m : List (String × Option String)) (k : String)
    (v : Option String) : (mapSet m k v).lookup k = some v := by
  induction m with
  | nil => simp [mapSet, List.lookup_cons]
  | cons kv rest ih =>
    rcases kv with ⟨a, b⟩
    by_cases h : a = k
    · subst h
      simp [mapSet, List.lookup_cons]
    · have hb : (a == k) = false := by simp [h]
      have hb2 : (k == a) = false := by simp [Ne.symm h]
      simp [mapSet, hb, List.lookup_cons, hb2, ih]

theorem mapSet_lookup_other (m : List (String × Option String)) (k s : String)
    (v : Option String) (h : k ≠ s) : (mapSet m k v).lookup s = m.lookup s := by
  have hsk : (s == k) = false := by simp [Ne.symm h]
  induction m with
  | nil => simp [mapSet, List.lookup_cons, hsk]
  | cons kv rest ih =>
    rcases kv with ⟨a, b⟩
    by_cases ha : a = k
    · subst ha
      simp [mapSet, List.lookup_cons, hsk]
    · have hb : (a == k) = false := by simp [ha]
      simp [mapSet, hb, List.lookup_cons, ih]

theorem mapSet_keys (m : List (String × Option String)) (k : String)
    (v : Option String) :
    (mapSet m k v).map Prod.fst =
      if k ∈ m.map Prod.fst then m.map Prod.fst else m.map Prod.fst ++ [k] := by
  induction m with
  | nil => simp [mapSet]
  | cons kv rest ih =>
    rcases kv with ⟨a, b⟩
    by_cases ha : a = k
    · subst ha
      simp [mapSet]
    · have hb : (a == k) = false := by simp [ha]
      by_cases hk : k ∈ rest.map Prod.fst
      · simp [mapSet, hb, ih, hk, Ne.symm ha]
      · simp [mapSet, hb, ih, hk, Ne.symm ha]

theorem mapSet_nodup_keys (m : List (String × Option String)) (k : String)
    (v : Option String) (h : (m.map Prod.fst).Nodup) :
    ((mapSet m k v).map Prod.fst).Nodup := by
  rw [mapSet_keys]
  by_cases hk : k ∈ m.map Prod.fst
  · simpa [hk] using h
  · simp [hk, List.nodup_append, h]

theorem foldMapSet_lookup (es : List (String × Option String)) :
    ∀ (m : List (String × Option String)) (s : String),
    (es.foldl (fun m2 kv => mapSet m2 kv.1 kv.2) m).lookup s =
      (((es.reverse.find? (fun kv => kv.1 == s)).map (fun kv => kv.2)).or
        (m.lookup s)) := by
  induction es with
  | nil => intro m s; simp
  | cons kv rest ih =>
    intro m s
    rcases kv with ⟨a, b⟩
    simp only [List.foldl_cons, List.reverse_cons, List.find?_append]
    rw [ih]
    cases hf : rest.reverse.find? (fun kv => kv.1 == s) with
    | some kv2 => simp [hf, Option.or]
    | none =>
      by_cases ha : a = s
      · subst ha
        simp [hf, mapSet_lookup_self, List.find?_cons, Option.or]
      · simp [hf, mapSet_lookup_other m a s b ha, List.find?_cons, ha, Option.or]

theorem foldMapSet_nodup_keys (es : List (String × Option String)) :
    ∀ (m : List (String × Option String)), (m.map Prod.fst).Nodup →
    ((es.foldl (fun m2 kv => mapSet m2 kv.1 kv.2) m).map Prod.fst).Nodup := by
  induction es with
  | nil => intro m h; simpa using h
  | cons kv rest ih =>
    intro m h
    exact ih _ (mapSet_nodup_keys m kv.1 kv.2 h)

mutual
theorem traverseItem_hier (env : FsEnv) (repo : String) (i : NavItem)
    (ps : Option String) (st st' : TState)
    (h : traverseItem env repo i ps st = Except.ok st') :
    st'.hier = (encountersItem i ps).foldl (fun m kv => mapSet m kv.1 kv.2) st.hier := by
  cases i with
  | bare s => simp [traverseItem] at h
  | leaf t p =>
    unfold traverseItem at h
    cases hg : getPage env repo t (resolveUnder env.cwd ["docs", p]) env.titlePre with
    | none => rw [hg] at h; cases h; simp [encountersItem]
    | some pg => rw [hg] at h; cases h; simp [encountersItem]
  | sec t kids =>
    unfold traverseItem at h
    have h2 := traverseForest_hier env repo kids (some t)
      { st with hier := mapSet st.hier t ps } st' h
    rw [h2]
    simp [encountersItem]

theorem traverseForest_hier (env : FsEnv) (repo : String) (F : NavForest)
    (ps : Option String) (st st' : TState)
    (h : traverseForest env repo F ps st = Except.ok st') :
    st'.hier = (encountersForest F ps).foldl (fun m kv => mapSet m kv.1 kv.2) st.hier := by
  cases F with
  | nil =>
    unfold traverseForest at h
    cases h
    simp [encountersForest]
  | cons i rest =>
    unfold traverseForest at h
    cases hi : traverseItem env repo i ps st with
    | error e => rw [hi] at h; cases h
    | ok st1 =>
      rw [hi] at h
      have h1 := traverseItem_hier env repo i ps st st1 hi
      have h2 := traverseForest_hier env repo rest ps st1 st' h
      rw [h2, h1]
      simp [encountersForest, List.foldl_append]
end

/-- C6 counterexample: the claim says a section's hierarchy binding is
taken from the first time the section name is encountered in the
depth-first traversal; on the code (JS `Map.set` overwrites) a later
encounter of the same name replaces the binding. Navigation
`[S: [A], T: [S: [B]]]` first meets `S` at the root (parent none) and
later under `T`; the final hierarchy maps `S` to `T`. -/
theorem c6_first_encounter_refuted :
    ¬ (∀ (env : FsEnv) (repo : String) (nav : NavForest) (st : TState),
        traverseForest env repo nav none ⟨[], []⟩ = Except.ok st →
        ∀ s, st.hier.lookup s =
          ((encountersForest nav none).find? (fun kv => kv.1 == s)).map
            (fun kv => kv.2)) := by
  intro h
  have h6 := h ⟨"/w", fun p => p == "/w/docs/a.md" || p == "/w/docs/b.md", fun _ => "h", ""⟩
    "r"
    (NavForest.cons
      (NavItem.sec "S" (NavForest.cons (NavItem.leaf "A" "a.md") NavForest.nil))
      (NavForest.cons
        (NavItem.sec "T"
          (NavForest.cons
            (NavItem.sec "S" (NavForest.cons (NavItem.leaf "B" "b.md") NavForest.nil))
            NavForest.nil))
        NavForest.nil))
    ⟨[⟨"A", ⟨"r", "docs/a.md", "h"⟩, some "S"⟩, ⟨"B", ⟨"r", "docs/b.md", "h"⟩, some "S"⟩],
     [("S", some "T"), ("T", none)]⟩
    rfl "S"
  exact absurd h6 (by decide)

/-- C6 amended: each visited section name is a key of the hierarchy
exactly once, but its binding is the one from the LAST time the section
name is encountered during the depth-first traversal (later `Map.set`
calls overwrite earlier ones). -/
theorem c6_amended_last_binding (env : FsEnv) (repo : String) (nav : NavForest)
    (st : TState) (h : traverseForest env repo nav none ⟨[], []⟩ = Except.ok st) :
    (∀ s, st.hier.lookup s =
      ((encountersForest nav none).reverse.find? (fun kv => kv.1 == s)).map
        (fun kv => kv.2)) ∧
    (st.hier.map Prod.fst).Nodup := by
  have hh := traverseForest_hier env repo nav none ⟨[], []⟩ st h
  constructor
  · intro s
    rw [hh, foldMapSet_lookup]
    simp
  · rw [hh]
    exact foldMapSet_nodup_keys _ _ (by simp)

/-- C6 amended witness: on the counterexample navigation the hierarchy
binds `S` to its last-encounter parent `T`, and each key occurs once. -/
theorem c6_amended_last_binding_witness :
    ((⟨[⟨"A", ⟨"r", "docs/a.md", "h"⟩, some "S"⟩, ⟨"B", ⟨"r", "docs/b.md", "h"⟩, some "S"⟩],
       [("S", some "T"), ("T", none)]⟩ : TState).hier.lookup "S" = some (some "T")) ∧
    (([("S", some "T"), ("T", none)].map Prod.fst).Nodup) := by
  have h6 := c6_amended_last_binding
    ⟨"/w", fun p => p == "/w/docs/a.md" || p == "/w/docs/b.md", fun _ => "h", ""⟩ "r"
    (NavForest.cons
      (NavItem.sec "S" (NavForest.cons (NavItem.leaf "A" "a.md") NavForest.nil))
      (NavForest.cons
        (NavItem.sec "T"
          (NavForest.cons
            (NavItem.sec "S" (NavForest.cons (NavItem.leaf "B" "b.md") NavForest.nil))
            NavForest.nil))
        NavForest.nil))
    ⟨[⟨"A", ⟨"r", "docs/a.md", "h"⟩, some "S"⟩, ⟨"B", ⟨"r", "docs/b.md", "h"⟩, some "S"⟩],
     [("S", some "T"), ("T", none)]⟩
    rfl
  exact ⟨(h6.1 "S").trans (by decide), h6.2⟩

theorem splitSlash_ne_nil (cs : List Char) : splitSlash cs ≠ [] := by
  cases cs with
  | nil => simp [splitSlash]
  | cons c cs =>
    simp only [splitSlash]
    by_cases h : c = '/'
    · simp [h]
    · simp only [h, if_false]
      cases hs : splitSlash cs with
      | nil => simp
      | cons r rs => simp

theorem joinSlash_splitSlash (cs : List Char) : joinSlash (splitSlash cs) = cs := by
  induction cs with
  | nil => simp [splitSlash, joinSlash]
  | cons c cs ih =>
    simp only [splitSlash]
    by_cases h : c = '/'
    · subst h
      simp only [if_true]
      cases hs : splitSlash cs with
      | nil => exact absurd hs (splitSlash_ne_nil cs)
      | cons r rs =>
        rw [hs] at ih
        simp only [joinSlash]
        rw [ih]
        rfl
    · simp only [h, if_false]
      cases hs : splitSlash cs with
      | nil => exact absurd hs (splitSlash_ne_nil cs)
      | cons r rs =>
        rw [hs] at ih
        cases rs with
        | nil => simp only [joinSlash] at ih ⊢; rw [ih]
        | cons r2 rs2 => simp only [joinSlash] at ih ⊢; rw [← ih]; simp

theorem firstMatchLen_spec (parts rel : List (List Char)) :
    ∀ (n : Nat) (cs0 : List Char), firstMatchLen parts rel n = some cs0 →
      ∃ j, 1 ≤ j ∧ j ≤ n ∧ cs0 = joinSlash (parts.take j) ∧
        (∀ r ∈ rel, List.isPrefixOf (joinSlash (parts.take j)) r) ∧
        ∀ m, j < m → m ≤ n →
          ¬ (∀ r ∈ rel, List.isPrefixOf (joinSlash (parts.take m)) r) := by
  intro n
  induction n with
  | zero => intro cs0 h; simp [firstMatchLen] at h
  | succ n ih =>
    intro cs0 h
    unfold firstMatchLen at h
    by_cases hall : rel.all (fun p2 => List.isPrefixOf (joinSlash (parts.take (n + 1))) p2) = true
    · rw [if_pos hall] at h
      cases h
      refine ⟨n + 1, by omega, le_refl _, rfl, ?_, ?_⟩
      · intro r hr
        exact List.all_eq_true.mp hall r hr
      · intro m hm1 hm2
        omega
    · rw [if_neg hall] at h
      rcases ih cs0 h with ⟨j, hj1, hj2, hj3, hj4, hj5⟩
      refine ⟨j, hj1, Nat.le_succ_of_le hj2, hj3, hj4, ?_⟩
      intro m hm1 hm2 hcon
      by_cases hm : m ≤ n
      · exact hj5 m hm1 hm hcon
      · have hmeq : m = n + 1 := by omega
        subst hmeq
        exact hall (List.all_eq_true.mpr hcon)

/-- C4 counterexample: the claim says the inferred section directory is
the longest directory prefix shared by all children's resolved paths.
Two children at `docs/g/a.md` and `docs/g/b.md` share the directory
`docs/g`, yet the code infers nothing for them: it only considers
children whose recorded path contains the substring `'/docs/'`, and
recorded paths are cwd-relative, starting with `docs/` without a leading
slash. -/
theorem c4_spec_common_dir_refuted :
    ¬ (∀ cs : List LocalPage, cs ≠ [] → inferSectionDirectory cs = specCommonDir cs) := by
  intro h
  have h4 := h [⟨"A", ⟨"r", "docs/g/a.md", "h"⟩, some "S"⟩,
                ⟨"B", ⟨"r", "docs/g/b.md", "h"⟩, some "S"⟩] (by decide)
  exact absurd h4 (by decide)

/-- C4 amended: a child participates only if its recorded path contains
`'/docs/'` (its candidate directory is the dirname of the suffix after
the first such occurrence); with no participating children the result is
none; a returned directory is a component-truncation of the first
participating child's candidate that is a string prefix of every
candidate, and it is the longest such truncation. -/
theorem c4_amended_truncation (cs : List LocalPage) :
    (cs.filterMap (fun c => relDirChars c.meta.path.data) = [] →
      inferSectionDirectory cs = none) ∧
    (∀ d : List Char, inferSectionDirectory cs = some ⟨d⟩ →
      ∃ first rest, cs.filterMap (fun c => relDirChars c.meta.path.data) = first :: rest ∧
        (∀ r ∈ first :: rest, List.isPrefixOf d r) ∧
        ∃ n, 1 ≤ n ∧ n ≤ (splitSlash first).length ∧
          d = joinSlash ((splitSlash first).take n) ∧
          ∀ m, n < m → m ≤ (splitSlash first).length →
            ¬ (∀ r ∈ first :: rest,
                List.isPrefixOf (joinSlash ((splitSlash first).take m)) r)) := by
  constructor
  · intro hrel
    unfold inferSectionDirectory
    by_cases hcs : cs.isEmpty = true
    · rw [if_pos hcs]
    · rw [if_neg hcs, hrel]
      rfl
  · intro d hd
    have hne : ¬ cs.isEmpty = true := by
      intro he
      rw [List.isEmpty_iff.mp he] at hd
      simp [inferSectionDirectory] at hd
    rw [show inferSectionDirectory cs =
        inferCore (cs.filterMap fun c => relDirChars c.meta.path.data) from by
      unfold inferSectionDirectory; rw [if_neg hne]] at hd
    cases hrel : cs.filterMap (fun c => relDirChars c.meta.path.data) with
    | nil => rw [hrel] at hd; cases hd
    | cons first rest =>
      rw [hrel] at hd
      refine ⟨first, rest, rfl, ?_⟩
      unfold inferCore at hd
      dsimp only at hd
      by_cases hall : ((first :: rest).all fun p2 => p2 == first) = true
      · rw [if_pos hall] at hd
        have hfd : first = d := by
          injection hd with hd2
          injection hd2
        subst hfd
        have heq : ∀ r ∈ first :: rest, r = first := by
          intro r hr
          exact beq_iff_eq.mp (List.all_eq_true.mp hall r hr)
        constructor
        · intro r hr
          rw [heq r hr]
          exact List.isPrefixOf_iff_prefix.mpr (List.prefix_refl first)
        · refine ⟨(splitSlash first).length, ?_, le_refl _, ?_, ?_⟩
          · have h1 := splitSlash_ne_nil first
            have h2 : 0 < (splitSlash first).length := List.length_pos.mpr h1
            omega
          · rw [List.take_length, joinSlash_splitSlash]
          · intro m hm1 hm2
            omega
      · rw [if_neg hall] at hd
        cases hfm : firstMatchLen (splitSlash first) (first :: rest)
            (splitSlash first).length with
        | none => rw [hfm] at hd; cases hd
        | some cs0 =>
          rw [hfm] at hd
          have hcd : cs0 = d := by
            injection hd with hd2
            injection hd2
          subst hcd
          rcases firstMatchLen_spec (splitSlash first) (first :: rest)
              (splitSlash first).length cs0 hfm with ⟨j, hj1, hj2, hj3, hj4, hj5⟩
          exact ⟨by intro r hr; rw [hj3]; exact hj4 r hr, j, hj1, hj2, hj3, hj5⟩

/-- C4 amended witness: children recorded at `x/docs/ab/a.md` and
`x/docs/abc/b.md` participate (their paths contain `'/docs/'`), their
candidate directories are `ab` and `abc`, and the inferred directory is
the string prefix `ab` — a component-truncation of the first candidate
prefixing both, though not a directory of the second. -/
theorem c4_amended_truncation_witness :
    inferSectionDirectory [⟨"A", ⟨"r", "x/docs/ab/a.md", "h"⟩, some "S"⟩,
        ⟨"B", ⟨"r", "x/docs/abc/b.md", "h"⟩, some "S"⟩] = some "ab" ∧
    ∃ first rest,
      ([⟨"A", ⟨"r", "x/docs/ab/a.md", "h"⟩, some "S"⟩,
        ⟨"B", ⟨"r", "x/docs/abc/b.md", "h"⟩, some "S"⟩] : List LocalPage).filterMap
        (fun c => relDirChars c.meta.path.data) = first :: rest ∧
      (∀ r ∈ first :: rest, List.isPrefixOf "ab".data r) ∧
      ∃ n, 1 ≤ n ∧ n ≤ (splitSlash first).length ∧
        "ab".data = joinSlash ((splitSlash first).take n) ∧
        ∀ m, n < m → m ≤ (splitSlash first).length →
          ¬ (∀ r ∈ first :: rest,
              List.isPrefixOf (joinSlash ((splitSlash first).take m)) r) :=
  ⟨rfl,
   (c4_amended_truncation [⟨"A", ⟨"r", "x/docs/ab/a.md", "h"⟩, some "S"⟩,
      ⟨"B", ⟨"r", "x/docs/abc/b.md", "h"⟩, some "S"⟩]).2 "ab".data rfl⟩

/-- C5: when a section's inferred directory is truthy and `README.md`
exists there (so `getPage` yields a page), the builder synthesizes a
page for the section: it carries the section name as its (prefixed)
title — exactly the section name when the configured title prefix is
empty — its `parentPath` is the section's own parent section `ps`, not
the section itself, and it appears in the section-page sequence that
`getContext` appends after the traversed pages. -/
theorem c5_section_readme_page (env : FsEnv) (repo : String) (pages : List LocalPage)
    (hier : List (String × Option String)) (s : String) (ps : Option String)
    (d : String) (pg : LocalPage)
    (hmem : (s, ps) ∈ hier)
    (hdir : inferSectionDirectory (pages.filter (fun p => p.parentPath == some s)) = some d)
    (hd : d ≠ "")
    (hpg : getPage env repo s (resolveUnder env.cwd ["docs", d, "README.md"]) env.titlePre
      = some pg) :
    { pg with parentPath := ps } ∈ createSectionPages env repo pages hier ∧
    { pg with parentPath := ps }.title = strTrim (env.titlePre ++ " " ++ s) ∧
    (env.titlePre = "" → strTrim (" " ++ s) = s →
      { pg with parentPath := ps }.title = s) ∧
    { pg with parentPath := ps }.parentPath = ps ∧
    (∀ nav pl hl, contextPages env repo nav = Except.ok (pl, hl) →
      ∃ st : TState, traverseForest env repo nav none ⟨[], []⟩ = Except.ok st ∧
        pl = st.pages ++ createSectionPages env repo st.pages st.hier) := by
  have hne : ¬ (pages.filter (fun p => p.parentPath == some s)).isEmpty = true := by
    intro h
    rw [List.isEmpty_iff.mp h] at hdir
    simp [inferSectionDirectory] at hdir
  have htitle : pg.title = strTrim (env.titlePre ++ " " ++ s) := by
    unfold getPage at hpg
    dsimp only at hpg
    split at hpg
    · injection hpg with h2
      rw [← h2]
    · cases hpg
  refine ⟨?_, htitle, ?_, rfl, ?_⟩
  · refine List.mem_flatMap.mpr ⟨(s, ps), hmem, ?_⟩
    unfold sectionPageFor
    rw [if_neg hne, hdir]
    have hdb : (d == "") = false := by simp [hd]
    dsimp only
    rw [hdb]
    simp only [Bool.false_eq_true, if_false]
    rw [hpg]
    exact List.mem_singleton.mpr rfl
  · intro hpre hclean
    rw [htitle, hpre]
    simpa using hclean
  · intro nav pl hl h
    unfold contextPages at h
    cases ht : traverseForest env repo nav none ⟨[], []⟩ with
    | error e => rw [ht] at h; cases h
    | ok st =>
      rw [ht] at h
      injection h with h2
      injection h2 with h3 h4
      exact ⟨st, rfl, h3.symm⟩

/-- C5 witness: two children recorded under `docs/x/docs/g/` give the
section `S` the inferred directory `g`; `docs/g/README.md` exists, so a
page titled `S` parented at the root (the parent of `S`) is synthesized. -/
theorem c5_section_readme_page_witness :
    (⟨"S", ⟨"r", "docs/g/README.md", "h"⟩, none⟩ : LocalPage) ∈
      createSectionPages ⟨"/w", fun p => p == "/w/docs/g/README.md", fun _ => "h", ""⟩ "r"
        [⟨"A", ⟨"r", "docs/x/docs/g/a.md", "h"⟩, some "S"⟩,
         ⟨"B", ⟨"r", "docs/x/docs/g/b.md", "h"⟩, some "S"⟩]
        [("S", none)] ∧
    (⟨"S", ⟨"r", "docs/g/README.md", "h"⟩, none⟩ : LocalPage).title = "S" :=
  ⟨(c5_section_readme_page
      ⟨"/w", fun p => p == "/w/docs/g/README.md", fun _ => "h", ""⟩ "r"
      [⟨"A", ⟨"r", "docs/x/docs/g/a.md", "h"⟩, some "S"⟩,
       ⟨"B", ⟨"r", "docs/x/docs/g/b.md", "h"⟩, some "S"⟩]
      [("S", none)] "S" none "g" ⟨"S", ⟨"r", "docs/g/README.md", "h"⟩, none⟩
      (by decide) rfl (by decide) rfl).1, rfl⟩

/-- C2: the claim's failing input, evaluated. A navigation with one
section `S` holding one existing child page `A` and no README anywhere
does produce the hierarchy entry `S → none`, but the sync engine never
syncs `A`: the run's whole trace is the root-level fetch, because the
recursion into a section's level is keyed on a synced page whose title
equals the section name and no such page exists. -/
theorem c2_orphan_section_children_dropped :
    contextPages ⟨"/w", fun p => p == "/w/docs/g/a.md", fun _ => "h", ""⟩ "r"
        (NavForest.cons
          (NavItem.sec "S" (NavForest.cons (NavItem.leaf "A" "g/a.md") NavForest.nil))
          NavForest.nil) =
      Except.ok ([⟨"A", ⟨"r", "docs/g/a.md", "h"⟩, some "S"⟩], [("S", none)]) ∧
    runEngine ⟨fun _ => []⟩ [⟨"A", ⟨"r", "docs/g/a.md", "h"⟩, some "S"⟩] 1 10 5 =
      some (⟨[(none, 1)], 10⟩, [Event.fetch none (some 1)]) ∧
    (∀ e ∈ [Event.fetch none (some 1)], isSyncOp e = false) :=
  ⟨rfl, rfl, by decide⟩

theorem recsOf_nil : recsOf [] = [] := rfl

theorem recsOf_append (a b : List Event) : recsOf (a ++ b) = recsOf b ++ recsOf a := by
  unfold recsOf
  rw [List.filterMap_append, List.reverse_append, List.map_append]

theorem itemEvB_mono {k pid lb lb' u e} (h : lb ≤ lb') (hi : ItemEvB k pid lb' u e) :
    ItemEvB k pid lb u e := by
  cases u with
  | fresh p =>
    rcases hi with ⟨i, hi1, hi2⟩
    exact ⟨i, le_trans h hi1, hi2⟩
  | matched r p => exact hi
  | orphan r => exact hi

theorem itemEvB_level {k pid lb u e} (hi : ItemEvB k pid lb u e) :
    levelOf e = k ∧ (∀ k2 p2, e ≠ Event.fetch k2 p2) := by
  cases u with
  | fresh p =>
    rcases hi with ⟨i, _, rfl⟩
    exact ⟨rfl, fun k2 p2 h => by cases h⟩
  | matched r p =>
    rw [hi]
    exact ⟨rfl, fun k2 p2 h => by cases h⟩
  | orphan r =>
    rw [hi]
    exact ⟨rfl, fun k2 p2 h => by cases h⟩

theorem syncItem_spec (k : Option String) (pid : Option Nat) (st : EngSt)
    (u : UnionItem) (st1 : EngSt) (e : Event)
    (h : syncItem k pid st u = some (st1, e)) :
    st1.synced = recsOf [e] ++ st.synced ∧ st.nextId ≤ st1.nextId ∧
    ItemEvB k pid st.nextId u e := by
  cases u with
  | fresh p =>
    simp only [syncItem] at h
    injection h with h2
    injection h2 with ha hb
    subst ha
    subst hb
    refine ⟨?_, Nat.le_succ _, st.nextId, le_refl _, rfl⟩
    by_cases hg : p.title ≠ "" ∧ st.nextId ≠ 0
    · simp [recsOf, recOf, hg]
    · simp [recsOf, recOf, hg]
  | matched r p =>
    simp only [syncItem] at h
    split at h
    · injection h with h2
      injection h2 with ha hb
      subst ha
      subst hb
      refine ⟨?_, le_refl _, rfl⟩
      by_cases hg : r.title ≠ "" ∧ r.id ≠ 0
      · simp [recsOf, recOf, hg]
      · simp [recsOf, recOf, hg]
    · cases h
  | orphan r =>
    simp only [syncItem] at h
    injection h with h2
    injection h2 with ha hb
    subst ha
    subst hb
    exact ⟨by simp [recsOf, recOf], le_refl _, rfl⟩

theorem syncLevel_spec (k : Option String) (pid : Option Nat) :
    ∀ (us : List UnionItem) (st st1 : EngSt) (evs : List Event),
    syncLevel k pid us st = some (st1, evs) →
    st1.synced = recsOf evs ++ st.synced ∧ st.nextId ≤ st1.nextId ∧
    List.Forall₂ (ItemEvB k pid st.nextId) us evs := by
  intro us
  induction us with
  | nil =>
    intro st st1 evs h
    unfold syncLevel at h
    injection h with h2
    injection h2 with ha hb
    subst ha
    subst hb
    exact ⟨by simp [recsOf], le_refl _, List.Forall₂.nil⟩
  | cons u us ih =>
    intro st st1 evs h
    unfold syncLevel at h
    cases h1 : syncItem k pid st u with
    | none => rw [h1] at h; cases h
    | some out1 =>
      rw [h1] at h
      rcases out1 with ⟨sta, e⟩
      dsimp only at h
      cases h2 : syncLevel k pid us sta with
      | none => rw [h2] at h; cases h
      | some out2 =>
        rw [h2] at h
        rcases out2 with ⟨stb, evs2⟩
        dsimp only at h
        injection h with h3
        injection h3 with ha hb
        subst ha
        subst hb
        rcases syncItem_spec k pid st u sta e h1 with ⟨hs1, hn1, hi1⟩
        rcases ih sta stb evs2 h2 with ⟨hs2, hn2, hi2⟩
        refine ⟨?_, le_trans hn1 hn2, ?_⟩
        · rw [hs2, hs1, show (e :: evs2) = [e] ++ evs2 from rfl, recsOf_append]
          simp
        · exact List.Forall₂.cons hi1
            (hi2.imp (fun {a b} hab => itemEvB_mono hn1 hab))

theorem goChildren_nil_inv (f : Option String → EngSt → Option (EngSt × List Event))
    (st st' : EngSt) (evs : List Event) (h : goChildren f [] st = some (st', evs)) :
    st' = st ∧ evs = [] := by
  unfold goChildren at h
  injection h with h2
  injection h2 with ha hb
  exact ⟨ha.symm, hb.symm⟩

theorem goChildren_cons_inv (f : Option String → EngSt → Option (EngSt × List Event))
    (t : String) (ts : List String) (st st' : EngSt) (evs : List Event)
    (h : goChildren f (t :: ts) st = some (st', evs)) :
    ∃ st1 evs1 evs2, f (some t) st = some (st1, evs1) ∧
      goChildren f ts st1 = some (st', evs2) ∧ evs = evs1 ++ evs2 := by
  unfold goChildren at h
  cases h1 : f (some t) st with
  | none => rw [h1] at h; cases h
  | some out1 =>
    rw [h1] at h
    rcases out1 with ⟨st1, evs1⟩
    dsimp only at h
    cases h2 : goChildren f ts st1 with
    | none => rw [h2] at h; cases h
    | some out2 =>
      rw [h2] at h
      rcases out2 with ⟨st2, evs2⟩
      dsimp only at h
      injection h with h3
      injection h3 with ha hb
      subst ha
      subst hb
      exact ⟨st1, evs1, evs2, rfl, h2, rfl⟩

theorem processLevel_succ_inv (env : Env) (L : List LocalPage) (fuel : Nat)
    (k : Option String) (st st' : EngSt) (tr : List Event)
    (h : processLevel env L (fuel + 1) k st = some (st', tr)) :
    ∃ st1 evs st2 cevs,
      syncLevel k (st.synced.lookup k)
        (buildUnion (pagesByParent L k) (env.children (st.synced.lookup k))) st
        = some (st1, evs) ∧
      goChildren (processLevel env L fuel)
        (((pagesByParent L k).filter (fun p => hasKids L p.title)).map
          (fun p => p.title)) st1 = some (st2, cevs) ∧
      st' = st2 ∧ tr = (Event.fetch k (st.synced.lookup k) :: evs) ++ cevs := by
  simp only [processLevel] at h
  cases h1 : syncLevel k (st.synced.lookup k)
      (buildUnion (pagesByParent L k) (env.children (st.synced.lookup k))) st with
  | none => rw [h1] at h; cases h
  | some out1 =>
    rw [h1] at h
    rcases out1 with ⟨st1, evs⟩
    dsimp only at h
    cases h2 : goChildren (processLevel env L fuel)
        (((pagesByParent L k).filter (fun p => hasKids L p.title)).map
          (fun p => p.title)) st1 with
    | none => rw [h2] at h; cases h
    | some out2 =>
      rw [h2] at h
      rcases out2 with ⟨st2, cevs⟩
      dsimp only at h
      injection h with h3
      injection h3 with ha hb
      exact ⟨st1, evs, st2, cevs, rfl, h2, ha.symm, hb.symm⟩

theorem goChildren_synced (f : Option String → EngSt → Option (EngSt × List Event))
    (hf : ∀ t st st2 evs2, f (some t) st = some (st2, evs2) →
      st2.synced = recsOf evs2 ++ st.synced ∧ st.nextId ≤ st2.nextId) :
    ∀ (ts : List String) (st st' : EngSt) (evs : List Event),
    goChildren f ts st = some (st', evs) →
    st'.synced = recsOf evs ++ st.synced ∧ st.nextId ≤ st'.nextId := by
  intro ts
  induction ts with
  | nil =>
    intro st st' evs h
    rcases goChildren_nil_inv f st st' evs h with ⟨rfl, rfl⟩
    exact ⟨by simp [recsOf], le_refl _⟩
  | cons t ts ih =>
    intro st st' evs h
    rcases goChildren_cons_inv f t ts st st' evs h with ⟨st1, evs1, evs2, h1, h2, rfl⟩
    rcases hf t st st1 evs1 h1 with ⟨ha1, ha2⟩
    rcases ih st1 st' evs2 h2 with ⟨hb1, hb2⟩
    refine ⟨?_, le_trans ha2 hb2⟩
    rw [hb1, ha1, recsOf_append]
    simp

theorem processLevel_synced (env : Env) (L : List LocalPage) :
    ∀ (fuel : Nat) (k : Option String) (st st' : EngSt) (tr : List Event),
    processLevel env L fuel k st = some (st', tr) →
    st'.synced = recsOf tr ++ st.synced ∧ st.nextId ≤ st'.nextId := by
  intro fuel
  induction fuel with
  | zero => intro k st st' tr h; simp [processLevel] at h
  | succ fuel ih =>
    intro k st st' tr h
    rcases processLevel_succ_inv env L fuel k st st' tr h with
      ⟨st1, evs, st2, cevs, h1, h2, rfl, rfl⟩
    rcases syncLevel_spec _ _ _ _ _ _ h1 with ⟨hs1, hn1, _⟩
    rcases goChildren_synced (processLevel env L fuel)
      (fun t st st2 evs2 hcall => ih (some t) st st2 evs2 hcall) _ _ _ _ h2 with ⟨hs2, hn2⟩
    refine ⟨?_, le_trans hn1 hn2⟩
    rw [hs2, hs1]
    rw [show (Event.fetch k (st.synced.lookup k) :: evs) ++ cevs =
      [Event.fetch k (st.synced.lookup k)] ++ (evs ++ cevs) from by simp,
      recsOf_append, recsOf_append]
    simp [recsOf, recOf]

theorem matchPages_spec : ∀ (ps : List LocalPage) (rem : List RemotePage),
    List.Forall₂ (fun p u => u = UnionItem.fresh p ∨
      ∃ r, r ∈ rem ∧ r.path = p.meta.path ∧ u = UnionItem.matched r p)
      ps (matchPages ps rem).1 ∧ (matchPages ps rem).2 ⊆ rem := by
  intro ps
  induction ps with
  | nil =>
    intro rem
    exact ⟨List.Forall₂.nil, by simp [matchPages]⟩
  | cons p ps ih =>
    intro rem
    cases hf : rem.find? (fun r => r.path == p.meta.path) with
    | none =>
      simp only [matchPages, hf]
      exact ⟨List.Forall₂.cons (Or.inl rfl) (ih rem).1, (ih rem).2⟩
    | some r =>
      simp only [matchPages, hf]
      have hrmem : r ∈ rem := List.mem_of_find?_eq_some hf
      have hpr := List.find?_some hf
      have hrpath : r.path = p.meta.path := by simpa using hpr
      constructor
      · refine List.Forall₂.cons (Or.inr ⟨r, hrmem, hrpath, rfl⟩) ?_
        refine ((ih (rem.eraseP (fun r2 => r2.path == p.meta.path))).1).imp ?_
        intro p' u' hpu
        rcases hpu with h | ⟨r2, hr2, hp2, hu2⟩
        · exact Or.inl h
        · exact Or.inr ⟨r2, List.eraseP_subset _ hr2, hp2, hu2⟩
      · exact subset_trans (ih _).2 (List.eraseP_subset _)

theorem up_det {L : List LocalPage} {a b b' : Option String}
    (h1 : Up L a b) (h2 : Up L a b') : b = b' := by
  cases h1 with
  | step t p hp =>
    cases h2 with
    | step t2 p2 hp2 =>
      rw [hp] at hp2
      injection hp2 with h3
      rw [h3]

theorem upN_snoc {L : List LocalPage} :
    ∀ {n : Nat} {a b c : Option String}, UpN L n a b → Up L b c → UpN L (n + 1) a c := by
  intro n a b c h
  induction h with
  | zero k => intro hup; exact UpN.succ hup (UpN.zero _)
  | succ hu hrest ih => intro hup; exact UpN.succ hu (ih hup)

theorem upN_converge {L : List LocalPage} :
    ∀ {m : Nat} {a b : Option String}, UpN L m a b →
    ∀ {m' : Nat} {b' : Option String}, UpN L m' a b' → m ≤ m' →
    UpN L (m' - m) b b' := by
  intro m a b h1
  induction h1 with
  | zero k =>
    intro m' b' h2 hle
    simpa using h2
  | succ hu hrest ih =>
    intro m' b' h2 hle
    cases h2 with
    | zero =>
      exact absurd hle (by omega)
    | succ hu2 hrest2 =>
      rw [up_det hu2 hu] at hrest2
      have hres := ih hrest2 (by omega)
      rw [Nat.succ_sub_succ] at *
      exact hres

theorem upN_none {L : List LocalPage} {n : Nat} {c : Option String}
    (h : UpN L n none c) : n = 0 ∧ c = none := by
  cases h with
  | zero => exact ⟨rfl, rfl⟩
  | succ hu hrest => cases hu

theorem chain_det {L : List LocalPage} :
    ∀ {k : Option String} {d : Nat}, Chain L k d →
    ∀ {d' : Nat}, Chain L k d' → d = d' := by
  intro k d h1
  induction h1 with
  | root =>
    intro d' h2
    cases h2
    rfl
  | node hp hc ih =>
    intro d' h2
    cases h2 with
    | node hp2 hc2 =>
      rw [hp] at hp2
      injection hp2 with h3
      rw [← h3] at hc2
      rw [ih hc2]

theorem chain_no_cycle {L : List LocalPage} :
    ∀ {k : Option String} {d : Nat}, Chain L k d →
    ∀ {n : Nat}, UpN L n k k → n = 0 := by
  intro k d h
  induction h with
  | root =>
    intro n hc
    cases hc with
    | zero => rfl
    | succ hu hrest => cases hu
  | node hp hchain ih =>
    intro n hc
    cases hc with
    | zero => rfl
    | succ hu hrest =>
      have hb := up_det hu (Up.step _ _ hp)
      rw [hb] at hrest
      exact ih (upN_snoc hrest (Up.step _ _ hp))

theorem pageOfTitle_self {L : List LocalPage}
    (hnd : (L.map (fun p => p.title)).Nodup) {p : LocalPage} (hp : p ∈ L) :
    pageOfTitle L p.title = some p := by
  induction L with
  | nil => cases hp
  | cons q L ih =>
    rcases List.mem_cons.mp hp with rfl | hp2
    · simp [pageOfTitle, List.find?_cons]
    · have hq : q.title ≠ p.title := by
        intro he
        simp only [List.map_cons, List.nodup_cons] at hnd
        exact hnd.1 (he ▸ List.mem_map_of_mem (fun p2 => p2.title) hp2)
      have hqb : (q.title == p.title) = false := by simp [hq]
      simp only [pageOfTitle, List.find?_cons, hqb]
      have hnd2 : (L.map (fun p2 => p2.title)).Nodup := by
        simp only [List.map_cons, List.nodup_cons] at hnd
        exact hnd.2
      exact ih hnd2 hp2

theorem forall₂_mem_right {α β : Type} {R : α → β → Prop} :
    ∀ {l₁ : List α} {l₂ : List β}, List.Forall₂ R l₁ l₂ →
    ∀ {b : β}, b ∈ l₂ → ∃ a ∈ l₁, R a b := by
  intro l₁ l₂ h
  induction h with
  | nil => intro b hb; cases hb
  | cons hab h2 ih =>
    intro b hb
    rcases List.mem_cons.mp hb with rfl | hb2
    · exact ⟨_, List.mem_cons_self _ _, hab⟩
    · rcases ih hb2 with ⟨a, ha, hr⟩
      exact ⟨a, List.mem_cons_of_mem _ ha, hr⟩

theorem fetchKeys_append (a b : List Event) :
    fetchKeys (a ++ b) = fetchKeys a ++ fetchKeys b := by
  unfold fetchKeys
  rw [List.filterMap_append]

theorem fetch_mem_fetchKeys {k2 : Option String} {pid : Option Nat} {tr : List Event}
    (h : Event.fetch k2 pid ∈ tr) : k2 ∈ fetchKeys tr := by
  unfold fetchKeys
  exact List.mem_filterMap.mpr ⟨_, h, rfl⟩

theorem syncLevel_events {k : Option String} {pid : Option Nat} {us : List UnionItem}
    {st st1 : EngSt} {evs : List Event} (h : syncLevel k pid us st = some (st1, evs)) :
    (∀ e ∈ evs, levelOf e = k ∧ ∀ k2 p2, e ≠ Event.fetch k2 p2) ∧ fetchKeys evs = [] := by
  rcases syncLevel_spec k pid us st st1 evs h with ⟨_, _, hf⟩
  have hmem : ∀ e ∈ evs, levelOf e = k ∧ ∀ k2 p2, e ≠ Event.fetch k2 p2 := by
    intro e he
    rcases forall₂_mem_right hf he with ⟨u, _, hue⟩
    exact itemEvB_level hue
  refine ⟨hmem, ?_⟩
  unfold fetchKeys
  rw [List.filterMap_eq_nil_iff]
  intro e he
  rcases hmem e he with ⟨_, hnf⟩
  cases e with
  | fetch k2 p2 => exact absurd rfl (hnf k2 p2)
  | created _ _ _ _ => rfl
  | updated _ _ _ _ _ => rfl
  | deleted _ _ => rfl

theorem sibling_disjoint_aux {L : List LocalPage} {k : Option String} {d : Nat}
    (hc : Chain L k d) {t1 t2 : String} (hne : t1 ≠ t2)
    (hu1 : Up L (some t1) k) (hu2 : Up L (some t2) k)
    {k2 : Option String} {m1 m2 : Nat} (hle : m1 ≤ m2)
    (h1 : UpN L m1 k2 (some t1)) (h2 : UpN L m2 k2 (some t2)) : False := by
  have hconv := upN_converge h1 h2 hle
  generalize hg : m2 - m1 = mm at hconv
  cases hconv with
  | zero => exact hne rfl
  | succ hu hrest =>
    rw [up_det hu hu1] at hrest
    have h0 := chain_no_cycle hc (upN_snoc hrest hu2)
    omega

theorem sibling_disjoint {L : List LocalPage} {k : Option String} {d : Nat}
    (hc : Chain L k d) {t1 t2 : String} (hne : t1 ≠ t2)
    (hu1 : Up L (some t1) k) (hu2 : Up L (some t2) k)
    {k2 : Option String} {m1 m2 : Nat}
    (h1 : UpN L m1 k2 (some t1)) (h2 : UpN L m2 k2 (some t2)) : False := by
  rcases le_total m1 m2 with hle | hle
  · exact sibling_disjoint_aux hc hne hu1 hu2 hle h1 h2
  · exact sibling_disjoint_aux hc (Ne.symm hne) hu2 hu1 hle h2 h1

theorem children_facts (L : List LocalPage)
    (hnd : (L.map (fun p => p.title)).Nodup) (k : Option String) :
    (((pagesByParent L k).filter (fun p => hasKids L p.title)).map
      (fun p => p.title)).Nodup ∧
    (∀ t ∈ ((pagesByParent L k).filter (fun p => hasKids L p.title)).map
      (fun p => p.title), ∃ p, p ∈ L ∧ p.title = t ∧ normKey p = k) := by
  constructor
  · have hsub : ((pagesByParent L k).filter (fun p => hasKids L p.title)).Sublist L :=
      List.Sublist.trans (List.filter_sublist _) (List.filter_sublist _)
    exact List.Sublist.nodup (List.Sublist.map _ hsub) hnd
  · intro t ht
    rcases List.mem_map.mp ht with ⟨p, hp, rfl⟩
    have hp1 : p ∈ List.filter (fun p2 => normKey p2 == k) L := List.mem_of_mem_filter hp
    have hp2 : p ∈ L := List.mem_of_mem_filter hp1
    have hk : normKey p = k := by
      have h3 := (List.mem_filter.mp hp1).2
      simpa using h3
    exact ⟨p, hp2, rfl, hk⟩

theorem processLevel_keys (env : Env) (L : List LocalPage)
    (hnd : (L.map (fun p => p.title)).Nodup) :
    ∀ (fuel : Nat) (k : Option String) (d : Nat) (st st' : EngSt) (tr : List Event),
    Chain L k d →
    processLevel env L fuel k st = some (st', tr) →
    (fetchKeys tr).Nodup ∧ ∀ k2 ∈ fetchKeys tr, ∃ m, UpN L m k2 k := by
  intro fuel
  induction fuel with
  | zero => intro k d st st' tr hc h; simp [processLevel] at h
  | succ fuel ih =>
    intro k d st st' tr hc h
    rcases processLevel_succ_inv env L fuel k st st' tr h with
      ⟨st1, evs, st2, cevs, h1, h2, rfl, rfl⟩
    have hevs := syncLevel_events h1
    have hftr : fetchKeys ((Event.fetch k (st.synced.lookup k) :: evs) ++ cevs) =
        k :: fetchKeys cevs := by
      rw [fetchKeys_append]
      rw [show fetchKeys (Event.fetch k (st.synced.lookup k) :: evs) =
        k :: fetchKeys evs from rfl, hevs.2]
      rfl
    rw [hftr]
    rcases children_facts L hnd k with ⟨hts_nd, hts_mem⟩
    have hgo : ∀ (ts2 : List String) (stA stB : EngSt) (evsC : List Event),
        ts2.Nodup →
        (∀ t ∈ ts2, ∃ p, p ∈ L ∧ p.title = t ∧ normKey p = k) →
        goChildren (processLevel env L fuel) ts2 stA = some (stB, evsC) →
        (fetchKeys evsC).Nodup ∧
        (∀ k2 ∈ fetchKeys evsC, ∃ t ∈ ts2, ∃ m, UpN L m k2 (some t)) := by
      intro ts2
      induction ts2 with
      | nil =>
        intro stA stB evsC _ _ hgc
        rcases goChildren_nil_inv _ _ _ _ hgc with ⟨rfl, rfl⟩
        simp [fetchKeys]
      | cons t ts2 ihts =>
        intro stA stB evsC hndts hmem hgc
        rcases goChildren_cons_inv _ _ _ _ _ _ hgc with ⟨stM, evs1, evs2, hcall, hrest, rfl⟩
        rcases hmem t (List.mem_cons_self _ _) with ⟨p, hpL, rfl, hpk⟩
        have hup : Up L (some p.title) k := by
          have h0 := Up.step p.title p (pageOfTitle_self hnd hpL)
          rw [hpk] at h0
          exact h0
        have hchild : Chain L (some p.title) (d + 1) :=
          Chain.node (pageOfTitle_self hnd hpL) (hpk ▸ hc)
        rcases ih (some p.title) (d + 1) stA stM evs1 hchild hcall with ⟨hnd1, hch1⟩
        have hndtail := List.nodup_cons.mp hndts
        rcases ihts stM stB evs2 hndtail.2
          (fun t' ht' => hmem t' (List.mem_cons_of_mem _ ht')) hrest with ⟨hnd2, hch2⟩
        rw [fetchKeys_append]
        constructor
        · refine List.Nodup.append hnd1 hnd2 ?_
          intro k2 hk1 hk2
          rcases hch1 k2 hk1 with ⟨m1, hm1⟩
          rcases hch2 k2 hk2 with ⟨t', ht', m2, hm2⟩
          rcases hmem t' (List.mem_cons_of_mem _ ht') with ⟨p', hp'L, rfl, hp'k⟩
          have hup' : Up L (some p'.title) k := by
            have h0 := Up.step p'.title p' (pageOfTitle_self hnd hp'L)
            rw [hp'k] at h0
            exact h0
          have htne : p.title ≠ p'.title := by
            intro he
            exact hndtail.1 (he ▸ ht')
          exact sibling_disjoint hc htne hup hup' hm1 hm2
        · intro k2 hk2
          rcases List.mem_append.mp hk2 with hk | hk
          · rcases hch1 k2 hk with ⟨m, hm⟩
            exact ⟨p.title, List.mem_cons_self _ _, m, hm⟩
          · rcases hch2 k2 hk with ⟨t', ht', m, hm⟩
            exact ⟨t', List.mem_cons_of_mem _ ht', m, hm⟩
    rcases hgo _ st1 st' cevs hts_nd hts_mem h2 with ⟨hgnd, hgch⟩
    constructor
    · refine List.nodup_cons.mpr ⟨?_, hgnd⟩
      intro hkmem
      rcases hgch k hkmem with ⟨t, ht, m, hm⟩
      rcases hts_mem t ht with ⟨p, hpL, rfl, hpk⟩
      have hup : Up L (some p.title) k := by
        have h0 := Up.step p.title p (pageOfTitle_self hnd hpL)
        rw [hpk] at h0
        exact h0
      have h0 := chain_no_cycle hc (upN_snoc hm hup)
      omega
    · intro k2 hk2
      rcases List.mem_cons.mp hk2 with rfl | hk
      · exact ⟨0, UpN.zero _⟩
      · rcases hgch k2 hk with ⟨t, ht, m, hm⟩
        rcases hts_mem t ht with ⟨p, hpL, rfl, hpk⟩
        have hup : Up L (some p.title) k := by
          have h0 := Up.step p.title p (pageOfTitle_self hnd hpL)
          rw [hpk] at h0
          exact h0
        exact ⟨m + 1, upN_snoc hm hup⟩

theorem up_of_mem {L : List LocalPage} (hnd : (L.map (fun p => p.title)).Nodup)
    {p : LocalPage} (hp : p ∈ L) {k : Option String} (hk : normKey p = k) :
    Up L (some p.title) k := by
  have h0 := Up.step p.title p (pageOfTitle_self hnd hp)
  rw [hk] at h0
  exact h0

theorem chain_of_mem {L : List LocalPage} (hnd : (L.map (fun p => p.title)).Nodup)
    {p : LocalPage} (hp : p ∈ L) {k : Option String} {d : Nat}
    (hk : normKey p = k) (hc : Chain L k d) : Chain L (some p.title) (d + 1) :=
  Chain.node (pageOfTitle_self hnd hp) (hk ▸ hc)

theorem forall₂_append_split {α β : Type} {R : α → β → Prop} :
    ∀ {l₁ l₂ : List α} {l : List β}, List.Forall₂ R (l₁ ++ l₂) l →
    ∃ la lb, l = la ++ lb ∧ List.Forall₂ R l₁ la ∧ List.Forall₂ R l₂ lb := by
  intro l₁
  induction l₁ with
  | nil =>
    intro l₂ l h
    exact ⟨[], l, rfl, List.Forall₂.nil, by simpa using h⟩
  | cons a l₁ ih =>
    intro l₂ l h
    cases h with
    | cons hab h2 =>
      rcases ih h2 with ⟨la, lb, rfl, hA, hB⟩
      exact ⟨_ :: la, lb, rfl, List.Forall₂.cons hab hA, hB⟩

theorem forall₂_trans {α β γ : Type} {R : α → β → Prop} {S : β → γ → Prop} :
    ∀ {l₁ : List α} {l₂ : List β} {l₃ : List γ},
    List.Forall₂ R l₁ l₂ → List.Forall₂ S l₂ l₃ →
    List.Forall₂ (fun a c => ∃ b, R a b ∧ S b c) l₁ l₃ := by
  intro l₁ l₂ l₃ h1
  induction h1 generalizing l₃ with
  | nil =>
    intro h2
    cases h2
    exact List.Forall₂.nil
  | cons hab h ih =>
    intro h2
    cases h2 with
    | cons hbc h2a => exact List.Forall₂.cons ⟨_, hab, hbc⟩ (ih h2a)

theorem forall₂_map_eq {α β : Type} {f : β → Option String} {g : α → Option String} :
    ∀ {l₁ : List α} {l₂ : List β}, List.Forall₂ (fun a b => f b = g a) l₁ l₂ →
    l₂.map f = l₁.map g := by
  intro l₁ l₂ h
  induction h with
  | nil => rfl
  | cons hab h2 ih => simp [hab, ih]

theorem syncLevel_union_shape {k : Option String} {pid : Option Nat}
    {ps : List LocalPage} {rem : List RemotePage} {st st1 : EngSt} {evs : List Event}
    (h : syncLevel k pid (buildUnion ps rem) st = some (st1, evs)) :
    ∃ syncs dels, evs = syncs ++ dels ∧
      (∀ e ∈ syncs, isPageSync e = true) ∧
      syncs.map localTitleOf = ps.map (fun p => some p.title) ∧
      (∀ e ∈ dels, ∃ i, e = Event.deleted k i) := by
  rcases syncLevel_spec _ _ _ _ _ _ h with ⟨_, _, hf⟩
  unfold buildUnion at hf
  rcases forall₂_append_split hf with ⟨evsA, evsB, rfl, hA, hB⟩
  have hPA := forall₂_trans (matchPages_spec ps rem).1 hA
  refine ⟨evsA, evsB, rfl, ?_, ?_, ?_⟩
  · intro e he
    rcases forall₂_mem_right hPA he with ⟨p, _, u, hu, hue⟩
    rcases hu with rfl | ⟨r, _, _, rfl⟩
    · rcases hue with ⟨i, _, rfl⟩
      rfl
    · rw [hue]
      rfl
  · apply forall₂_map_eq
    refine hPA.imp ?_
    intro p e hpe
    rcases hpe with ⟨u, hu, hue⟩
    rcases hu with rfl | ⟨r, _, _, rfl⟩
    · rcases hue with ⟨i, _, rfl⟩
      rfl
    · rw [hue]
      rfl
  · intro e he
    rcases forall₂_mem_right hB he with ⟨u, hu, hue⟩
    rcases List.mem_map.mp hu with ⟨r, _, rfl⟩
    exact ⟨r.id, hue⟩

theorem trace_fetchKeys {k : Option String} {pid : Option Nat} {evs cevs : List Event}
    (hevs : fetchKeys evs = []) :
    fetchKeys ((Event.fetch k pid :: evs) ++ cevs) = k :: fetchKeys cevs := by
  rw [fetchKeys_append,
    show fetchKeys (Event.fetch k pid :: evs) = k :: fetchKeys evs from rfl, hevs]
  rfl

theorem goChildren_evkeys (f : Option String → EngSt → Option (EngSt × List Event))
    (hf : ∀ t st st2 evs2, f (some t) st = some (st2, evs2) →
      ∀ e ∈ evs2, levelOf e ∈ fetchKeys evs2) :
    ∀ (ts : List String) (st st' : EngSt) (evs : List Event),
    goChildren f ts st = some (st', evs) →
    ∀ e ∈ evs, levelOf e ∈ fetchKeys evs := by
  intro ts
  induction ts with
  | nil =>
    intro st st' evs h e he
    rcases goChildren_nil_inv _ _ _ _ h with ⟨rfl, rfl⟩
    cases he
  | cons t ts ih =>
    intro st st' evs h e he
    rcases goChildren_cons_inv _ _ _ _ _ _ h with ⟨st1, evs1, evs2, h1, h2, rfl⟩
    rw [fetchKeys_append]
    rcases List.mem_append.mp he with he1 | he2
    · exact List.mem_append.mpr (Or.inl (hf t _ _ _ h1 e he1))
    · exact List.mem_append.mpr (Or.inr (ih _ _ _ h2 e he2))

theorem processLevel_evkeys (env : Env) (L : List LocalPage) :
    ∀ (fuel : Nat) (k : Option String) (st st' : EngSt) (tr : List Event),
    processLevel env L fuel k st = some (st', tr) →
    ∀ e ∈ tr, levelOf e ∈ fetchKeys tr := by
  intro fuel
  induction fuel with
  | zero => intro k st st' tr h; simp [processLevel] at h
  | succ fuel ih =>
    intro k st st' tr h e he
    rcases processLevel_succ_inv env L fuel k st st' tr h with
      ⟨st1, evs, st2, cevs, h1, h2, rfl, rfl⟩
    have hevs := syncLevel_events h1
    rw [trace_fetchKeys hevs.2]
    rcases List.mem_append.mp he with heh | hec
    · rcases List.mem_cons.mp heh with rfl | hee
      · exact List.mem_cons_self _ _
      · rw [(hevs.1 e hee).1]
        exact List.mem_cons_self _ _
    · exact List.mem_cons_of_mem _
        (goChildren_evkeys _ (fun t s s2 e2 hcall => ih (some t) s s2 e2 hcall)
          _ _ _ _ h2 e hec)

theorem filter_level_nil {tr : List Event} {k0 : Option String}
    (hev : ∀ e ∈ tr, levelOf e ∈ fetchKeys tr) (hk : k0 ∉ fetchKeys tr) :
    tr.filter (fun e => levelOf e == k0) = [] := by
  rw [List.filter_eq_nil_iff]
  intro e he hbe
  have hle : levelOf e = k0 := by simpa using hbe
  exact hk (hle ▸ hev e he)

theorem goChildren_keys (env : Env) (L : List LocalPage)
    (hnd : (L.map (fun p => p.title)).Nodup) (fuel : Nat) (k : Option String) (d : Nat)
    (hc : Chain L k d) :
    ∀ (ts2 : List String) (stA stB : EngSt) (evsC : List Event),
    ts2.Nodup →
    (∀ t ∈ ts2, ∃ p, p ∈ L ∧ p.title = t ∧ normKey p = k) →
    goChildren (processLevel env L fuel) ts2 stA = some (stB, evsC) →
    (fetchKeys evsC).Nodup ∧
    (∀ k2 ∈ fetchKeys evsC, ∃ t ∈ ts2, ∃ m, UpN L m k2 (some t)) := by
  intro ts2
  induction ts2 with
  | nil =>
    intro stA stB evsC _ _ hgc
    rcases goChildren_nil_inv _ _ _ _ hgc with ⟨rfl, rfl⟩
    simp [fetchKeys]
  | cons t ts2 ihts =>
    intro stA stB evsC hndts hmem hgc
    rcases goChildren_cons_inv _ _ _ _ _ _ hgc with ⟨stM, evs1, evs2, hcall, hrest, rfl⟩
    rcases hmem t (List.mem_cons_self _ _) with ⟨p, hpL, rfl, hpk⟩
    have hup := up_of_mem hnd hpL hpk
    have hchild := chain_of_mem hnd hpL hpk hc
    rcases processLevel_keys env L hnd fuel (some p.title) (d + 1) stA stM evs1
      hchild hcall with ⟨hnd1, hch1⟩
    have hndtail := List.nodup_cons.mp hndts
    rcases ihts stM stB evs2 hndtail.2
      (fun t' ht' => hmem t' (List.mem_cons_of_mem _ ht')) hrest with ⟨hnd2, hch2⟩
    rw [fetchKeys_append]
    constructor
    · refine List.Nodup.append hnd1 hnd2 ?_
      intro k2 hk1 hk2
      rcases hch1 k2 hk1 with ⟨m1, hm1⟩
      rcases hch2 k2 hk2 with ⟨t', ht', m2, hm2⟩
      rcases hmem t' (List.mem_cons_of_mem _ ht') with ⟨p', hp'L, rfl, hp'k⟩
      have hup' := up_of_mem hnd hp'L hp'k
      have htne : p.title ≠ p'.title := fun he => hndtail.1 (he ▸ ht')
      exact sibling_disjoint hc htne hup hup' hm1 hm2
    · intro k2 hk2
      rcases List.mem_append.mp hk2 with hk | hk
      · rcases hch1 k2 hk with ⟨m, hm⟩
        exact ⟨p.title, List.mem_cons_self _ _, m, hm⟩
      · rcases hch2 k2 hk with ⟨t', ht', m, hm⟩
        exact ⟨t', List.mem_cons_of_mem _ ht', m, hm⟩

theorem processLevel_levelBlock (env : Env) (L : List LocalPage)
    (hnd : (L.map (fun p => p.title)).Nodup) :
    ∀ (fuel : Nat) (k : Option String) (d : Nat) (st st' : EngSt) (tr : List Event),
    Chain L k d →
    processLevel env L fuel k st = some (st', tr) →
    ∀ (k0 : Option String) (pid0 : Option Nat), Event.fetch k0 pid0 ∈ tr →
      ∃ syncs dels,
        tr.filter (fun e => levelOf e == k0) = Event.fetch k0 pid0 :: (syncs ++ dels) ∧
        (∀ e ∈ syncs, isPageSync e = true) ∧
        syncs.map localTitleOf = (pagesByParent L k0).map (fun p => some p.title) ∧
        (∀ e ∈ dels, ∃ i, e = Event.deleted k0 i) := by
  intro fuel
  induction fuel with
  | zero => intro k d st st' tr hc h; simp [processLevel] at h
  | succ fuel ih =>
    intro k d st st' tr hc h k0 pid0 hk0
    rcases processLevel_succ_inv env L fuel k st st' tr h with
      ⟨st1, evs, st2, cevs, h1, h2, rfl, rfl⟩
    have hevs := syncLevel_events h1
    have hcevkeys : ∀ e ∈ cevs, levelOf e ∈ fetchKeys cevs :=
      goChildren_evkeys _
        (fun t s s2 e2 hcall => processLevel_evkeys env L fuel (some t) s s2 e2 hcall)
        _ _ _ _ h2
    have hkeys := processLevel_keys env L hnd (fuel + 1) k d st st' _ hc h
    rw [trace_fetchKeys hevs.2] at hkeys
    have hknotc : k ∉ fetchKeys cevs := (List.nodup_cons.mp hkeys.1).1
    rcases List.mem_append.mp hk0 with hkh | hkc
    · rcases List.mem_cons.mp hkh with heq | hkevs
      · injection heq with hek hep
        subst hek
        subst hep
        rcases syncLevel_union_shape h1 with ⟨syncs, dels, rfl, hs1, hs2, hs3⟩
        refine ⟨syncs, dels, ?_, hs1, hs2, hs3⟩
        have hfevs : (syncs ++ dels).filter (fun e => levelOf e == k0) = syncs ++ dels := by
          rw [List.filter_eq_self]
          intro e he
          simp [(hevs.1 e he).1]
        have hfcevs : cevs.filter (fun e => levelOf e == k0) = [] :=
          filter_level_nil hcevkeys hknotc
        rw [List.cons_append, List.filter_cons, List.filter_append, hfevs, hfcevs,
          List.append_nil]
        simp [levelOf]
      · exact absurd rfl ((hevs.1 _ hkevs).2 k0 pid0)
    · have hk0c : k0 ∈ fetchKeys cevs := fetch_mem_fetchKeys hkc
      have hk0ne : k0 ≠ k := fun he => hknotc (he ▸ hk0c)
      have hffront : (Event.fetch k (st.synced.lookup k) :: evs).filter
          (fun e => levelOf e == k0) = [] := by
        rw [List.filter_eq_nil_iff]
        intro e he hbe
        have hle : levelOf e = k0 := by simpa using hbe
        rcases List.mem_cons.mp he with rfl | hee
        · exact hk0ne (by simpa [levelOf] using hle.symm)
        · exact hk0ne (((hevs.1 e hee).1.symm.trans hle).symm)
      have hsplit : ((Event.fetch k (st.synced.lookup k) :: evs) ++ cevs).filter
          (fun e => levelOf e == k0) = cevs.filter (fun e => levelOf e == k0) := by
        rw [List.filter_append, hffront]
        rfl
      rw [hsplit]
      rcases children_facts L hnd k with ⟨hts_nd, hts_mem⟩
      have hgo : ∀ (ts2 : List String) (stA stB : EngSt) (evsC : List Event),
          ts2.Nodup →
          (∀ t ∈ ts2, ∃ p, p ∈ L ∧ p.title = t ∧ normKey p = k) →
          goChildren (processLevel env L fuel) ts2 stA = some (stB, evsC) →
          Event.fetch k0 pid0 ∈ evsC →
          ∃ syncs dels,
            evsC.filter (fun e => levelOf e == k0) =
              Event.fetch k0 pid0 :: (syncs ++ dels) ∧
            (∀ e ∈ syncs, isPageSync e = true) ∧
            syncs.map localTitleOf = (pagesByParent L k0).map (fun p => some p.title) ∧
            (∀ e ∈ dels, ∃ i, e = Event.deleted k0 i) := by
        intro ts2
        induction ts2 with
        | nil =>
          intro stA stB evsC _ _ hgc hmemf
          rcases goChildren_nil_inv _ _ _ _ hgc with ⟨rfl, rfl⟩
          cases hmemf
        | cons t ts2 ihts =>
          intro stA stB evsC hndts hmem hgc hmemf
          rcases goChildren_cons_inv _ _ _ _ _ _ hgc with
            ⟨stM, evs1, evs2, hcall, hrest, rfl⟩
          rcases hmem t (List.mem_cons_self _ _) with ⟨p, hpL, rfl, hpk⟩
          have hup := up_of_mem hnd hpL hpk
          have hchild := chain_of_mem hnd hpL hpk hc
          have hndtail := List.nodup_cons.mp hndts
          rcases processLevel_keys env L hnd fuel (some p.title) (d + 1) stA stM evs1
            hchild hcall with ⟨_, hch1⟩
          rcases goChildren_keys env L hnd fuel k d hc ts2 stM stB evs2 hndtail.2
            (fun t' ht' => hmem t' (List.mem_cons_of_mem _ ht')) hrest with ⟨_, hch2⟩
          have hdisj : ∀ k2, k2 ∈ fetchKeys evs1 → k2 ∈ fetchKeys evs2 → False := by
            intro k2 hk1 hk2
            rcases hch1 k2 hk1 with ⟨m1, hm1⟩
            rcases hch2 k2 hk2 with ⟨t', ht', m2, hm2⟩
            rcases hmem t' (List.mem_cons_of_mem _ ht') with ⟨p', hp'L, rfl, hp'k⟩
            have hup' := up_of_mem hnd hp'L hp'k
            have htne : p.title ≠ p'.title := fun he => hndtail.1 (he ▸ ht')
            exact sibling_disjoint hc htne hup hup' hm1 hm2
          rw [List.filter_append]
          rcases List.mem_append.mp hmemf with hf1 | hf2
          · have hk01 : k0 ∈ fetchKeys evs1 := fetch_mem_fetchKeys hf1
            have hf2nil : evs2.filter (fun e => levelOf e == k0) = [] := by
              refine filter_level_nil ?_ ?_
              · exact goChildren_evkeys _
                  (fun t2 s s2 e2 hcall2 =>
                    processLevel_evkeys env L fuel (some t2) s s2 e2 hcall2)
                  _ _ _ _ hrest
              · exact fun hk2 => hdisj k0 hk01 hk2
            rcases ih (some p.title) (d + 1) stA stM evs1 hchild hcall k0 pid0 hf1 with
              ⟨syncs, dels, hfe, hq1, hq2, hq3⟩
            exact ⟨syncs, dels, by rw [hfe, hf2nil]; simp, hq1, hq2, hq3⟩
          · have hk02 : k0 ∈ fetchKeys evs2 := fetch_mem_fetchKeys hf2
            have hf1nil : evs1.filter (fun e => levelOf e == k0) = [] := by
              refine filter_level_nil ?_ ?_
              · exact processLevel_evkeys env L fuel (some p.title) stA stM evs1 hcall
              · exact fun hk1 => hdisj k0 hk1 hk02
            rcases ihts stM stB evs2 hndtail.2
              (fun t' ht' => hmem t' (List.mem_cons_of_mem _ ht')) hrest hf2 with
              ⟨syncs, dels, hfe, hq1, hq2, hq3⟩
            exact ⟨syncs, dels, by rw [hfe, hf1nil]; rfl, hq1, hq2, hq3⟩
      exact hgo _ st1 st' cevs hts_nd hts_mem h2 hkc

/-- C10: within any single processed level of a successful run, the
level's remote-store operations are serialized as one block in the
trace: the level's fetch, then exactly one create-or-update per local
page of the level in the local sequence order, then the deletions of the
unmatched remote pages — every local page of the level is synced before
any deletion candidate of the level is processed. -/
theorem c10_level_order (env : Env) (L : List LocalPage) (home n0 fuel : Nat)
    (st' : EngSt) (tr : List Event)
    (hnd : (L.map (fun p => p.title)).Nodup)
    (hrun : runEngine env L home n0 fuel = some (st', tr))
    (k : Option String) (pid : Option Nat)
    (hk : Event.fetch k pid ∈ tr) :
    ∃ syncs dels,
      tr.filter (fun e => levelOf e == k) = Event.fetch k pid :: (syncs ++ dels) ∧
      (∀ e ∈ syncs, isPageSync e = true) ∧
      syncs.map localTitleOf = (pagesByParent L k).map (fun p => some p.title) ∧
      (∀ e ∈ dels, ∃ i, e = Event.deleted k i) :=
  processLevel_levelBlock env L hnd fuel none 0
    { synced := [(none, home)], nextId := n0 } st' tr Chain.root hrun k pid hk

/-- C10 witness: a run with one root page, one child page, and one
stale remote page at the root level; the root level's block is its
fetch, the page sync of `A`, then the deletion. -/
theorem c10_level_order_witness :
    ∃ syncs dels,
      ([Event.fetch none (some 1), Event.created none "A" (some 1) 10,
        Event.deleted none 7, Event.fetch (some "A") (some 10),
        Event.created (some "A") "B" (some 10) 11].filter
          (fun e => levelOf e == (none : Option String))) =
        Event.fetch none (some 1) :: (syncs ++ dels) ∧
      (∀ e ∈ syncs, isPageSync e = true) ∧
      syncs.map localTitleOf =
        (pagesByParent [⟨"A", ⟨"r", "docs/a.md", "h"⟩, none⟩,
          ⟨"B", ⟨"r", "docs/b.md", "h"⟩, some "A"⟩] none).map
          (fun p => some p.title) ∧
      (∀ e ∈ dels, ∃ i, e = Event.deleted none i) :=
  c10_level_order
    ⟨fun pid => match pid with | some 1 => [⟨7, "Zed", "docs/z.md", "r"⟩] | _ => []⟩
    [⟨"A", ⟨"r", "docs/a.md", "h"⟩, none⟩, ⟨"B", ⟨"r", "docs/b.md", "h"⟩, some "A"⟩]
    1 10 3 ⟨[(some "B", 11), (some "A", 10), (none, 1)], 12⟩
    [Event.fetch none (some 1), Event.created none "A" (some 1) 10,
     Event.deleted none 7, Event.fetch (some "A") (some 10),
     Event.created (some "A") "B" (some 10) 11]
    (by decide) rfl none (some 1) (by decide)

theorem get?_append_cases {l₁ l₂ : List Event} {n : Nat} {e : Event}
    (h : (l₁ ++ l₂).get? n = some e) :
    (n < l₁.length ∧ l₁.get? n = some e) ∨
    (l₁.length ≤ n ∧ l₂.get? (n - l₁.length) = some e) := by
  by_cases hn : n < l₁.length
  · exact Or.inl ⟨hn, by rw [← h]; exact (List.get?_append hn).symm⟩
  · exact Or.inr ⟨by omega, by rw [← h]; exact (List.get?_append_right (by omega)).symm⟩

theorem processLevel_cross (env : Env) (L : List LocalPage)
    (hnd : (L.map (fun p => p.title)).Nodup) :
    ∀ (fuel : Nat) (k : Option String) (d : Nat) (st st' : EngSt) (tr : List Event),
    Chain L k d →
    processLevel env L fuel k st = some (st', tr) →
    ∀ (s : String) (p : LocalPage), pageOfTitle L s = some p →
    ∀ (i j : Nat) (ei ej : Event),
    tr.get? i = some ei → tr.get? j = some ej →
    isSyncOp ei = true → isSyncOp ej = true →
    levelOf ei = normKey p → levelOf ej = some s → i < j := by
  intro fuel
  induction fuel with
  | zero => intro k d st st' tr hc h; simp [processLevel] at h
  | succ fuel ih =>
    intro k d st st' tr hc h s p hp i j ei ej hgi hgj hsi hsj hli hlj
    rcases processLevel_succ_inv env L fuel k st st' tr h with
      ⟨st1, evs, st2, cevs, h1, h2, rfl, rfl⟩
    have hevs := syncLevel_events h1
    have hkeys := processLevel_keys env L hnd (fuel + 1) k d st st' _ hc h
    rw [trace_fetchKeys hevs.2] at hkeys
    have hknotc : k ∉ fetchKeys cevs := (List.nodup_cons.mp hkeys.1).1
    have hUNIQmem : ∀ k2 ∈ fetchKeys cevs, ∃ m, UpN L m k2 k :=
      fun k2 hk2 => hkeys.2 k2 (List.mem_cons_of_mem _ hk2)
    have hups : Up L (some s) (normKey p) := Up.step s p hp
    have hcevkeys : ∀ e ∈ cevs, levelOf e ∈ fetchKeys cevs :=
      goChildren_evkeys _
        (fun t s2 s3 e2 hcall => processLevel_evkeys env L fuel (some t) s2 s3 e2 hcall)
        _ _ _ _ h2
    rcases get?_append_cases hgi with ⟨hilt, hgi1⟩ | ⟨hige, hgi2⟩
    · have hei_mem := List.get?_mem hgi1
      rcases List.mem_cons.mp hei_mem with rfl | heevs
      · simp [isSyncOp] at hsi
      · have hk'eq : normKey p = k := hli.symm.trans ((hevs.1 ei heevs).1)
        rcases get?_append_cases hgj with ⟨hjlt, hgj1⟩ | ⟨hjge, hgj2⟩
        · have hej_mem := List.get?_mem hgj1
          rcases List.mem_cons.mp hej_mem with rfl | hejevs
          · simp [isSyncOp] at hsj
          · have hsk : some s = k := hlj.symm.trans ((hevs.1 ej hejevs).1)
            rw [hsk, hk'eq] at hups
            have h0 := chain_no_cycle hc (UpN.succ hups (UpN.zero _))
            omega
        · simp only [List.length_cons] at hilt hjge
          omega
    · have hei_mem : ei ∈ cevs := List.get?_mem hgi2
      have hk'keys : normKey p ∈ fetchKeys cevs := hli ▸ hcevkeys ei hei_mem
      rcases get?_append_cases hgj with ⟨hjlt, hgj1⟩ | ⟨hjge, hgj2⟩
      · have hej_mem := List.get?_mem hgj1
        rcases List.mem_cons.mp hej_mem with rfl | hejevs
        · simp [isSyncOp] at hsj
        · have hsk : some s = k := hlj.symm.trans ((hevs.1 ej hejevs).1)
          rcases hUNIQmem _ hk'keys with ⟨m, hm⟩
          rw [hsk] at hups
          have h0 := chain_no_cycle hc (UpN.succ hups hm)
          omega
      · rcases children_facts L hnd k with ⟨hts_nd, hts_mem⟩
        have hgo : ∀ (ts2 : List String) (stA stB : EngSt) (evsC : List Event),
            ts2.Nodup →
            (∀ t ∈ ts2, ∃ q, q ∈ L ∧ q.title = t ∧ normKey q = k) →
            goChildren (processLevel env L fuel) ts2 stA = some (stB, evsC) →
            ∀ (i2 j2 : Nat) (ei2 ej2 : Event),
            evsC.get? i2 = some ei2 → evsC.get? j2 = some ej2 →
            isSyncOp ei2 = true → isSyncOp ej2 = true →
            levelOf ei2 = normKey p → levelOf ej2 = some s → i2 < j2 := by
          intro ts2
          induction ts2 with
          | nil =>
            intro stA stB evsC _ _ hgc i2 j2 ei2 ej2 hgi3 hgj3 _ _ _ _
            rcases goChildren_nil_inv _ _ _ _ hgc with ⟨rfl, rfl⟩
            cases hgi3
          | cons t ts2 ihts =>
            intro stA stB evsC hndts hmem hgc i2 j2 ei2 ej2 hgi3 hgj3 hsi3 hsj3 hli3 hlj3
            rcases goChildren_cons_inv _ _ _ _ _ _ hgc with
              ⟨stM, evs1, evs2, hcall, hrest, rfl⟩
            rcases hmem t (List.mem_cons_self _ _) with ⟨q1, hq1L, rfl, hq1k⟩
            have hup1 := up_of_mem hnd hq1L hq1k
            have hchild1 := chain_of_mem hnd hq1L hq1k hc
            have hndtail := List.nodup_cons.mp hndts
            rcases processLevel_keys env L hnd fuel (some q1.title) (d + 1) stA stM evs1
              hchild1 hcall with ⟨_, hK1⟩
            rcases goChildren_keys env L hnd fuel k d hc ts2 stM stB evs2 hndtail.2
              (fun t' ht' => hmem t' (List.mem_cons_of_mem _ ht')) hrest with ⟨_, hK2⟩
            rcases get?_append_cases hgi3 with ⟨hilt3, hgi4⟩ | ⟨hige3, hgi4⟩
            · rcases get?_append_cases hgj3 with ⟨hjlt3, hgj4⟩ | ⟨hjge3, hgj4⟩
              · exact ih (some q1.title) (d + 1) stA stM evs1 hchild1 hcall s p hp
                  i2 j2 ei2 ej2 hgi4 hgj4 hsi3 hsj3 hli3 hlj3
              · omega
            · rcases get?_append_cases hgj3 with ⟨hjlt3, hgj4⟩ | ⟨hjge3, hgj4⟩
              · have hei2_mem : ei2 ∈ evs2 := List.get?_mem hgi4
                have hej2_mem : ej2 ∈ evs1 := List.get?_mem hgj4
                have hk'k2 : normKey p ∈ fetchKeys evs2 := by
                  have h3 := goChildren_evkeys _
                    (fun t2 s2 s3 e2 hcall2 =>
                      processLevel_evkeys env L fuel (some t2) s2 s3 e2 hcall2)
                    _ _ _ _ hrest ei2 hei2_mem
                  rw [hli3] at h3
                  exact h3
                have hsk1 : (some s) ∈ fetchKeys evs1 := by
                  have h3 := processLevel_evkeys env L fuel (some q1.title) stA stM evs1
                    hcall ej2 hej2_mem
                  rw [hlj3] at h3
                  exact h3
                rcases hK1 (some s) hsk1 with ⟨m2, hm2⟩
                rcases hK2 (normKey p) hk'k2 with ⟨t', ht', m1, hm1⟩
                rcases hmem t' (List.mem_cons_of_mem _ ht') with ⟨q2, hq2L, rfl, hq2k⟩
                have hup2 := up_of_mem hnd hq2L hq2k
                have hcomp : UpN L (m1 + 1) (some s) (some q2.title) :=
                  UpN.succ hups hm1
                have htne : q1.title ≠ q2.title := fun he => hndtail.1 (he ▸ ht')
                exact (sibling_disjoint hc htne hup1 hup2 hm2 hcomp).elim
              · have h3 := ihts stM stB evs2 hndtail.2
                  (fun t' ht' => hmem t' (List.mem_cons_of_mem _ ht')) hrest
                  (i2 - evs1.length) (j2 - evs1.length) ei2 ej2 hgi4 hgj4
                  hsi3 hsj3 hli3 hlj3
                omega
        have h3 := hgo _ st1 st' cevs hts_nd hts_mem h2
          (i - (Event.fetch k (st.synced.lookup k) :: evs).length)
          (j - (Event.fetch k (st.synced.lookup k) :: evs).length)
          ei ej hgi2 hgj2 hsi hsj hli hlj
        simp only [List.length_cons] at hige hjge h3
        omega

/-- C3: cross-level recursion is strictly sequential, parent before
child: in a successful run, every remote-store sync operation (page
create-or-update or deletion) issued at the level of the page titled `s`
— that page's own level, `normKey p` — occurs strictly earlier in the
trace than every sync operation issued at level `s`, the level of that
page's children. -/
theorem c3_parent_level_before_child (env : Env) (L : List LocalPage)
    (home n0 fuel : Nat) (st' : EngSt) (tr : List Event)
    (hnd : (L.map (fun p => p.title)).Nodup)
    (hrun : runEngine env L home n0 fuel = some (st', tr))
    (s : String) (p : LocalPage) (hp : pageOfTitle L s = some p)
    (i j : Nat) (ei ej : Event)
    (hi : tr.get? i = some ei) (hj : tr.get? j = some ej)
    (hsi : isSyncOp ei = true) (hsj : isSyncOp ej = true)
    (hli : levelOf ei = normKey p) (hlj : levelOf ej = some s) : i < j :=
  processLevel_cross env L hnd fuel none 0
    { synced := [(none, home)], nextId := n0 } st' tr Chain.root hrun
    s p hp i j ei ej hi hj hsi hsj hli hlj

/-- C3 witness: in the two-level run, the root-level operations (the
sync of `A` at index 1 and the deletion at index 2) precede the sync of
`B` at level `A` (index 4). -/
theorem c3_parent_level_before_child_witness : (2 : Nat) < 4 :=
  c3_parent_level_before_child
    ⟨fun pid => match pid with | some 1 => [⟨7, "Zed", "docs/z.md", "r"⟩] | _ => []⟩
    [⟨"A", ⟨"r", "docs/a.md", "h"⟩, none⟩, ⟨"B", ⟨"r", "docs/b.md", "h"⟩, some "A"⟩]
    1 10 3 ⟨[(some "B", 11), (some "A", 10), (none, 1)], 12⟩
    [Event.fetch none (some 1), Event.created none "A" (some 1) 10,
     Event.deleted none 7, Event.fetch (some "A") (some 10),
     Event.created (some "A") "B" (some 10) 11]
    (by decide) rfl "A" ⟨"A", ⟨"r", "docs/a.md", "h"⟩, none⟩ (by decide)
    2 4 (Event.deleted none 7) (Event.created (some "A") "B" (some 10) 11)
    rfl rfl rfl rfl rfl rfl

theorem lookup_unique {l : List (Option String × Nat)} {t : Option String} {v : Nat}
    (hm : (t, v) ∈ l) (hu : ∀ v2, (t, v2) ∈ l → v2 = v) : l.lookup t = some v := by
  induction l with
  | nil => cases hm
  | cons kv rest ih =>
    rcases kv with ⟨a, b⟩
    by_cases ha : t = a
    · subst ha
      simp only [List.lookup_cons, beq_self_eq_true]
      exact congrArg some (hu b (List.mem_cons_self _ _))
    · have hb : (t == a) = false := by simp [ha]
      simp only [List.lookup_cons, hb]
      rcases List.mem_cons.mp hm with heq | hm2
      · exact absurd (congrArg Prod.fst heq) ha
      · exact ih hm2 (fun v2 hv2 => hu v2 (List.mem_cons_of_mem _ hv2))

theorem lookup_none {l : List (Option String × Nat)} {t : Option String}
    (hn : ∀ v, (t, v) ∉ l) : l.lookup t = none := by
  induction l with
  | nil => rfl
  | cons kv rest ih =>
    rcases kv with ⟨a, b⟩
    by_cases ha : t = a
    · subst ha
      exact absurd (List.mem_cons_self _ _) (hn b)
    · have hb : (t == a) = false := by simp [ha]
      simp only [List.lookup_cons, hb]
      exact ih (fun v hv => hn v (List.mem_cons_of_mem _ hv))

theorem forall₂_with_mem {α β : Type} {R : α → β → Prop} :
    ∀ {l₁ : List α} {l₂ : List β}, List.Forall₂ R l₁ l₂ →
    List.Forall₂ (fun a b => a ∈ l₁ ∧ R a b) l₁ l₂ := by
  intro l₁ l₂ h
  induction h with
  | nil => exact List.Forall₂.nil
  | cons hab h2 ih =>
    exact List.Forall₂.cons ⟨List.mem_cons_self _ _, hab⟩
      (ih.imp (fun {a b} hab2 => ⟨List.mem_cons_of_mem _ hab2.1, hab2.2⟩))

theorem fetchKeys_mem_inv {tr : List Event} {k : Option String}
    (h : k ∈ fetchKeys tr) : ∃ pid, Event.fetch k pid ∈ tr := by
  unfold fetchKeys at h
  rcases List.mem_filterMap.mp h with ⟨e, he, hke⟩
  cases e with
  | fetch k2 pid =>
    injection hke with h2
    exact ⟨pid, h2 ▸ he⟩
  | created _ _ _ _ => cases hke
  | updated _ _ _ _ _ => cases hke
  | deleted _ _ => cases hke

theorem goChildren_lift {P : Event → Prop}
    (f : Option String → EngSt → Option (EngSt × List Event))
    (hf : ∀ t st st2 evs2, f (some t) st = some (st2, evs2) → ∀ e ∈ evs2, P e) :
    ∀ (ts : List String) (st st' : EngSt) (evs : List Event),
    goChildren f ts st = some (st', evs) → ∀ e ∈ evs, P e := by
  intro ts
  induction ts with
  | nil =>
    intro st st' evs h e he
    rcases goChildren_nil_inv _ _ _ _ h with ⟨rfl, rfl⟩
    cases he
  | cons t ts ih =>
    intro st st' evs h e he
    rcases goChildren_cons_inv _ _ _ _ _ _ h with ⟨st1, evs1, evs2, h1, h2, rfl⟩
    rcases List.mem_append.mp he with he1 | he2
    · exact hf t _ _ _ h1 e he1
    · exact ih _ _ _ h2 e he2

theorem syncLevel_prov {k : Option String} {pid0 : Option Nat} {L ps : List LocalPage}
    {rem : List RemotePage} {st st1 : EngSt} {evs : List Event}
    (hps : ∀ p ∈ ps, p ∈ L ∧ normKey p = k)
    (hmtl : ∀ r ∈ rem, ∀ q, q ∈ L → q.meta.path = r.path → q.title = r.title)
    (h : syncLevel k pid0 (buildUnion ps rem) st = some (st1, evs)) :
    ∀ e ∈ evs,
      (∀ t, localTitleOf e = some t → ∃ q, q ∈ L ∧ q.title = t ∧ normKey q = levelOf e) ∧
      (∀ t i, recOf e = some (t, i) → ∃ q, q ∈ L ∧ q.title = t ∧ normKey q = levelOf e) := by
  rcases syncLevel_spec _ _ _ _ _ _ h with ⟨_, _, hf⟩
  unfold buildUnion at hf
  rcases forall₂_append_split hf with ⟨evsA, evsB, rfl, hA, hB⟩
  have hPA := forall₂_with_mem (forall₂_trans (matchPages_spec ps rem).1 hA)
  intro e he
  rcases List.mem_append.mp he with heA | heB
  · rcases forall₂_mem_right hPA heA with ⟨p, _, hpmem, u, hu, hue⟩
    rcases hps p hpmem with ⟨hpL, hpk⟩
    rcases hu with rfl | ⟨r, hr, hrp, rfl⟩
    · rcases hue with ⟨i, _, rfl⟩
      constructor
      · intro t ht
        injection ht with ht2
        exact ⟨p, hpL, ht2, hpk⟩
      · intro t i2 ht
        simp only [recOf] at ht
        split at ht
        · injection ht with ht2
          exact ⟨p, hpL, congrArg Prod.fst ht2, hpk⟩
        · cases ht
    · rw [hue]
      have hteq : p.title = r.title := hmtl r hr p hpL hrp.symm
      constructor
      · intro t ht
        injection ht with ht2
        exact ⟨p, hpL, ht2, hpk⟩
      · intro t i2 ht
        simp only [recOf] at ht
        split at ht
        · injection ht with ht2
          exact ⟨p, hpL, hteq.trans (congrArg Prod.fst ht2), hpk⟩
        · cases ht
  · rcases forall₂_mem_right hB heB with ⟨u, hu, hue⟩
    rcases List.mem_map.mp hu with ⟨r, _, rfl⟩
    rw [hue]
    exact ⟨(fun t ht => by cases ht), (fun t i ht => by cases ht)⟩

theorem processLevel_prov (env : Env) (L : List LocalPage)
    (hmt : ∀ pid r, r ∈ env.children pid → ∀ q, q ∈ L →
      q.meta.path = r.path → q.title = r.title) :
    ∀ (fuel : Nat) (k : Option String) (st st' : EngSt) (tr : List Event),
    processLevel env L fuel k st = some (st', tr) →
    ∀ e ∈ tr,
      (∀ t, localTitleOf e = some t → ∃ q, q ∈ L ∧ q.title = t ∧ normKey q = levelOf e) ∧
      (∀ t i, recOf e = some (t, i) → ∃ q, q ∈ L ∧ q.title = t ∧ normKey q = levelOf e) := by
  intro fuel
  induction fuel with
  | zero => intro k st st' tr h; simp [processLevel] at h
  | succ fuel ih =>
    intro k st st' tr h e he
    rcases processLevel_succ_inv env L fuel k st st' tr h with
      ⟨st1, evs, st2, cevs, h1, h2, rfl, rfl⟩
    rcases List.mem_append.mp he with heh | hec
    · rcases List.mem_cons.mp heh with rfl | hee
      · exact ⟨(fun t ht => by cases ht), (fun t i ht => by cases ht)⟩
      · have hps : ∀ p ∈ pagesByParent L k, p ∈ L ∧ normKey p = k := by
          intro p hp
          have hp1 : p ∈ List.filter (fun p2 => normKey p2 == k) L := hp
          refine ⟨List.mem_of_mem_filter hp1, ?_⟩
          have h3 := (List.mem_filter.mp hp1).2
          simpa using h3
        exact syncLevel_prov hps
          (fun r hr q hq hqr => hmt (st.synced.lookup k) r hr q hq hqr) h1 e hee
    · exact goChildren_lift _
        (fun t s s2 e2 hcall => ih (some t) s s2 e2 hcall) _ _ _ _ h2 e hec

theorem title_inj {L : List LocalPage} (hnd : (L.map (fun p => p.title)).Nodup)
    {q q' : LocalPage} (h1 : q ∈ L) (h2 : q' ∈ L) (he : q.title = q'.title) : q = q' := by
  have ha := pageOfTitle_self hnd h1
  have hb := pageOfTitle_self hnd h2
  rw [← he] at hb
  rw [ha] at hb
  injection hb

theorem level_lookup {k : Option String} {pid0 : Option Nat} {ps : List LocalPage}
    {rem : List RemotePage} {st st1 : EngSt} {evs : List Event}
    (hndps : (ps.map (fun p => p.title)).Nodup)
    (hmtl : ∀ r ∈ rem, ∀ q ∈ ps, q.meta.path = r.path → q.title = r.title)
    (hids : ∀ r ∈ rem, r.id ≠ 0) (hn : 1 ≤ st.nextId)
    (h : syncLevel k pid0 (buildUnion ps rem) st = some (st1, evs)) :
    ∀ q ∈ ps, q.title ≠ "" →
      ∃ e i, e ∈ evs ∧ isPageSync e = true ∧ localTitleOf e = some q.title ∧
        syncIdOf e = some i ∧ (recsOf evs).lookup (some q.title) = some i := by
  rcases syncLevel_spec _ _ _ _ _ _ h with ⟨_, _, hf⟩
  unfold buildUnion at hf
  rcases forall₂_append_split hf with ⟨evsA, evsB, rfl, hA, hB⟩
  have hR2 : List.Forall₂ (fun p e => isPageSync e = true ∧ localTitleOf e = some p.title ∧
      ∃ i, i ≠ 0 ∧ syncIdOf e = some i ∧
        (p.title ≠ "" → recOf e = some (p.title, i)) ∧
        (p.title = "" → recOf e = none)) ps evsA := by
    refine (forall₂_with_mem (forall₂_trans (matchPages_spec ps rem).1 hA)).imp ?_
    intro p e hpe
    rcases hpe with ⟨hpmem, u, hu, hue⟩
    rcases hu with rfl | ⟨r, hr, hrp, rfl⟩
    · rcases hue with ⟨i, hlb, rfl⟩
      have hi0 : i ≠ 0 := by omega
      refine ⟨rfl, rfl, i, hi0, rfl, ?_, ?_⟩
      · intro ht
        simp [recOf, ht, hi0]
      · intro ht
        simp [recOf, ht]
    · rw [hue]
      have hteq : p.title = r.title := hmtl r hr p hpmem hrp.symm
      have hi0 : r.id ≠ 0 := hids r hr
      refine ⟨rfl, rfl, r.id, hi0, rfl, ?_, ?_⟩
      · intro ht
        simp only [recOf]
        rw [← hteq]
        simp [ht, hi0]
      · intro ht
        simp only [recOf]
        rw [← hteq]
        simp [ht]
  have hkeys_sub : ∀ (ps2 : List LocalPage) (evs2 : List Event),
      List.Forall₂ (fun p e => isPageSync e = true ∧ localTitleOf e = some p.title ∧
        ∃ i, i ≠ 0 ∧ syncIdOf e = some i ∧
          (p.title ≠ "" → recOf e = some (p.title, i)) ∧
          (p.title = "" → recOf e = none)) ps2 evs2 →
      ∀ tv ∈ List.filterMap recOf evs2, ∃ p2 ∈ ps2, tv.1 = p2.title := by
    intro ps2 evs2 hf2
    induction hf2 with
    | nil => intro tv htv; cases htv
    | @cons a b l1 l2 hab h2 ih =>
      intro tv htv
      rcases hab with ⟨_, _, i0, hi00, _, hrpos, hrneg⟩
      rw [List.filterMap_cons] at htv
      by_cases hte : a.title = ""
      · rw [hrneg hte] at htv
        rcases ih tv htv with ⟨p2, hp2, htv2⟩
        exact ⟨p2, List.mem_cons_of_mem _ hp2, htv2⟩
      · rw [hrpos hte] at htv
        rcases List.mem_cons.mp htv with rfl | htv2
        · exact ⟨a, List.mem_cons_self _ _, rfl⟩
        · rcases ih tv htv2 with ⟨p2, hp2, htv3⟩
          exact ⟨p2, List.mem_cons_of_mem _ hp2, htv3⟩
  have hkeyaux : ∀ (ps2 : List LocalPage) (evs2 : List Event),
      List.Forall₂ (fun p e => isPageSync e = true ∧ localTitleOf e = some p.title ∧
        ∃ i, i ≠ 0 ∧ syncIdOf e = some i ∧
          (p.title ≠ "" → recOf e = some (p.title, i)) ∧
          (p.title = "" → recOf e = none)) ps2 evs2 →
      (ps2.map (fun p => p.title)).Nodup →
      ∀ q ∈ ps2, q.title ≠ "" →
      ∃ e i, e ∈ evs2 ∧ isPageSync e = true ∧ localTitleOf e = some q.title ∧
        syncIdOf e = some i ∧ (q.title, i) ∈ List.filterMap recOf evs2 ∧
        ∀ v2, (q.title, v2) ∈ List.filterMap recOf evs2 → v2 = i := by
    intro ps2 evs2 hf2
    induction hf2 with
    | nil => intro _ q hq; cases hq
    | @cons a b l1 l2 hab h2 ih =>
      intro hnd2 q hq hqt
      rw [List.map_cons] at hnd2
      have hndc := List.nodup_cons.mp hnd2
      rcases List.mem_cons.mp hq with rfl | hq2
      · rcases hab with ⟨hps, hlt, i0, hi00, hid, hrpos, hrneg⟩
        have hrec := hrpos hqt
        refine ⟨b, i0, List.mem_cons_self _ _, hps, hlt, hid, ?_, ?_⟩
        · rw [List.filterMap_cons, hrec]
          exact List.mem_cons_self _ _
        · intro v2 hv2
          rw [List.filterMap_cons, hrec] at hv2
          rcases List.mem_cons.mp hv2 with heq | hv3
          · exact (Prod.ext_iff.mp heq).2
          · rcases hkeys_sub l1 l2 h2 _ hv3 with ⟨p2, hp2, hkey⟩
            simp only at hkey
            refine absurd ?_ hndc.1
            rw [hkey]
            exact List.mem_map_of_mem (fun p => p.title) hp2
      · rcases ih hndc.2 q hq2 hqt with
          ⟨e, i, he, hsy, hlt2, hid2, hment, huniq⟩
        rcases hab with ⟨_, _, i0, hi00, _, hrpos, hrneg⟩
        have htne : a.title ≠ q.title := by
          intro heq
          refine hndc.1 ?_
          rw [heq]
          exact List.mem_map_of_mem (fun p => p.title) hq2
        by_cases hte : a.title = ""
        · refine ⟨e, i, List.mem_cons_of_mem _ he, hsy, hlt2, hid2, ?_, ?_⟩
          · rw [List.filterMap_cons, hrneg hte]
            exact hment
          · intro v2 hv2
            rw [List.filterMap_cons, hrneg hte] at hv2
            exact huniq v2 hv2
        · refine ⟨e, i, List.mem_cons_of_mem _ he, hsy, hlt2, hid2, ?_, ?_⟩
          · rw [List.filterMap_cons, hrpos hte]
            exact List.mem_cons_of_mem _ hment
          · intro v2 hv2
            rw [List.filterMap_cons, hrpos hte] at hv2
            rcases List.mem_cons.mp hv2 with heq | hv3
            · exact absurd (congrArg Prod.fst heq).symm htne
            · exact huniq v2 hv3
  intro q hq hqt
  rcases hkeyaux ps evsA hR2 hndps q hq hqt with
    ⟨e, i, he, hsy, hlt2, hid2, hment, huniq⟩
  have hBnone : List.filterMap recOf evsB = [] := by
    rw [List.filterMap_eq_nil_iff]
    intro e2 he2
    rcases forall₂_mem_right hB he2 with ⟨u, hu, hue⟩
    rcases List.mem_map.mp hu with ⟨r, _, rfl⟩
    rw [hue]
    rfl
  have hrecs : recsOf (evsA ++ evsB) =
      (List.filterMap recOf evsA).reverse.map (fun ti => (some ti.1, ti.2)) := by
    unfold recsOf
    rw [List.filterMap_append, hBnone, List.append_nil]
  refine ⟨e, i, List.mem_append.mpr (Or.inl he), hsy, hlt2, hid2, ?_⟩
  rw [hrecs]
  apply lookup_unique
  · exact List.mem_map_of_mem _ (List.mem_reverse.mpr hment)
  · intro v2 hv2
    rcases List.mem_map.mp hv2 with ⟨ti, hti, hfe⟩
    rcases ti with ⟨t2, v3⟩
    injection hfe with hfe1 hfe2
    injection hfe1 with hfe3
    exact huniq v2 (hfe2 ▸ hfe3 ▸ List.mem_reverse.mp hti)

theorem lookup_append_some {l1 l2 : List (Option String × Nat)} {t : Option String}
    {v : Nat} (h : l1.lookup t = some v) : (l1 ++ l2).lookup t = some v := by
  induction l1 with
  | nil => cases h
  | cons kv rest ih =>
    rcases kv with ⟨a, b⟩
    by_cases ha : t = a
    · subst ha
      simp only [List.cons_append, List.lookup_cons, beq_self_eq_true] at h ⊢
      exact h
    · have hb : (t == a) = false := by simp [ha]
      simp only [List.cons_append, List.lookup_cons, hb] at h ⊢
      exact ih h

theorem lookup_append_none {l1 l2 : List (Option String × Nat)} {t : Option String}
    (h : ∀ v, (t, v) ∉ l1) : (l1 ++ l2).lookup t = l2.lookup t := by
  induction l1 with
  | nil => rfl
  | cons kv rest ih =>
    rcases kv with ⟨a, b⟩
    by_cases ha : t = a
    · subst ha
      exact absurd (List.mem_cons_self _ _) (h b)
    · have hb : (t == a) = false := by simp [ha]
      rw [List.cons_append]
      simp only [List.lookup_cons, hb]
      exact ih (fun v hv => h v (List.mem_cons_of_mem _ hv))

theorem recsOf_mem_inv {tr : List Event} {s : String} {v : Nat}
    (h : (some s, v) ∈ recsOf tr) : ∃ e ∈ tr, recOf e = some (s, v) := by
  unfold recsOf at h
  rcases List.mem_map.mp h with ⟨ti, hti, hfe⟩
  rcases ti with ⟨s2, v2⟩
  injection hfe with h1 h2
  injection h1 with h3
  have h3' : s2 = s := h3
  have h2' : v2 = v := h2
  rcases List.mem_filterMap.mp (List.mem_reverse.mp hti) with ⟨e, he, hrec⟩
  rw [h3', h2'] at hrec
  exact ⟨e, he, hrec⟩

theorem children_facts2 (L : List LocalPage) (k : Option String) :
    ∀ t ∈ ((pagesByParent L k).filter (fun p => hasKids L p.title)).map
      (fun p => p.title),
    ∃ p, p ∈ pagesByParent L k ∧ p ∈ L ∧ p.title = t ∧ normKey p = k ∧ t ≠ "" := by
  intro t ht
  rcases List.mem_map.mp ht with ⟨p, hp, rfl⟩
  have hpPB : p ∈ pagesByParent L k := List.mem_of_mem_filter hp
  have hp1 : p ∈ List.filter (fun p2 => normKey p2 == k) L := hpPB
  have hp2 : p ∈ L := List.mem_of_mem_filter hp1
  have hk : normKey p = k := by simpa using (List.mem_filter.mp hp1).2
  have hkids : hasKids L p.title = true := (List.mem_filter.mp hp).2
  have hne : p.title ≠ "" := by
    intro he
    rw [he] at hkids
    simp [hasKids] at hkids
  exact ⟨p, hpPB, hp2, rfl, hk, hne⟩

theorem two_mem_countP {α : Type} (p : α → Bool) :
    ∀ {l : List α} {a b : α}, a ∈ l → b ∈ l → a ≠ b → p a = true → p b = true →
    2 ≤ l.countP p := by
  intro l
  induction l with
  | nil => intro a b ha; cases ha
  | cons c rest ih =>
    intro a b ha hb hne hpa hpb
    rcases List.mem_cons.mp ha with rfl | ha2
    · rcases List.mem_cons.mp hb with rfl | hb2
      · exact absurd rfl hne
      · rw [List.countP_cons_of_pos _ _ hpa]
        have h1 : 0 < rest.countP p := List.countP_pos.mpr ⟨b, hb2, hpb⟩
        omega
    · rcases List.mem_cons.mp hb with rfl | hb2
      · rw [List.countP_cons_of_pos _ _ hpb]
        have h1 : 0 < rest.countP p := List.countP_pos.mpr ⟨a, ha2, hpa⟩
        omega
      · have h1 := ih ha2 hb2 hne hpa hpb
        by_cases hpc : p c = true
        · rw [List.countP_cons_of_pos _ _ hpc]
          omega
        · rw [List.countP_cons_of_neg _ _ (by simpa using hpc)]
          exact h1

theorem nodup_title_countP_le_one {l : List LocalPage}
    (hnd : (l.map (fun p => p.title)).Nodup) (t : String) :
    l.countP (fun p => some p.title == (some t : Option String)) ≤ 1 := by
  induction l with
  | nil => simp
  | cons c rest ih =>
    rw [List.map_cons] at hnd
    have hndc := List.nodup_cons.mp hnd
    by_cases hct : c.title = t
    · rw [List.countP_cons_of_pos _ _ (by simp [hct])]
      have h0 : rest.countP (fun p => some p.title == (some t : Option String)) = 0 := by
        rw [List.countP_eq_zero]
        intro q hq hbq
        have hqt : q.title = t := by simpa using hbq
        refine hndc.1 ?_
        have hmm : q.title ∈ List.map (fun p => p.title) rest :=
          List.mem_map_of_mem (fun p => p.title) hq
        rw [hqt] at hmm
        rw [hct]
        exact hmm
      omega
    · rw [List.countP_cons_of_neg _ _ (by simp [hct])]
      exact ih hndc.2

theorem processLevel_fetch_self (env : Env) (L : List LocalPage)
    (hnd : (L.map (fun p => p.title)).Nodup) (fuel : Nat) (k : Option String)
    (d : Nat) (st st' : EngSt) (tr : List Event) (hc : Chain L k d)
    (h : processLevel env L fuel k st = some (st', tr)) :
    ∀ pid2, Event.fetch k pid2 ∈ tr → pid2 = st.synced.lookup k := by
  cases fuel with
  | zero => simp [processLevel] at h
  | succ fuel =>
    intro pid2 hm
    rcases processLevel_succ_inv env L fuel k st st' tr h with
      ⟨st1, evs, st2, cevs, h1, h2, rfl, rfl⟩
    have hevs := syncLevel_events h1
    have hkeys := processLevel_keys env L hnd (fuel + 1) k d st st' _ hc h
    rw [trace_fetchKeys hevs.2] at hkeys
    have hknotc : k ∉ fetchKeys cevs := (List.nodup_cons.mp hkeys.1).1
    rcases List.mem_append.mp hm with hh | hcc
    · rcases List.mem_cons.mp hh with heq | hee
      · exact (Event.fetch.inj heq).2
      · exact absurd rfl ((hevs.1 _ hee).2 _ _)
    · exact absurd (fetch_mem_fetchKeys hcc) hknotc

theorem pageSync_title_unique (env : Env) (L : List LocalPage)
    (hnd : (L.map (fun p => p.title)).Nodup)
    (hmt : ∀ pid r, r ∈ env.children pid → ∀ q, q ∈ L →
      q.meta.path = r.path → q.title = r.title)
    (fuel : Nat) (k : Option String) (d : Nat) (st st' : EngSt) (tr : List Event)
    (hc : Chain L k d)
    (h : processLevel env L fuel k st = some (st', tr)) :
    ∀ (t : String) (e1 e2 : Event), e1 ∈ tr → e2 ∈ tr →
    isPageSync e1 = true → isPageSync e2 = true →
    localTitleOf e1 = some t → localTitleOf e2 = some t → e1 = e2 := by
  intro t e1 e2 he1 he2 hs1 hs2 hl1 hl2
  by_contra hne
  rcases (processLevel_prov env L hmt fuel k st st' tr h e1 he1).1 t hl1 with
    ⟨q1, hq1L, hq1t, hq1k⟩
  rcases (processLevel_prov env L hmt fuel k st st' tr h e2 he2).1 t hl2 with
    ⟨q2, hq2L, hq2t, hq2k⟩
  have hq12 : q1 = q2 := title_inj hnd hq1L hq2L (hq1t.trans hq2t.symm)
  have hlev : levelOf e2 = levelOf e1 := by
    rw [← hq2k, ← hq12, hq1k]
  have hfk : levelOf e1 ∈ fetchKeys tr :=
    processLevel_evkeys env L fuel k st st' tr h e1 he1
  rcases fetchKeys_mem_inv hfk with ⟨pid0, hfmem⟩
  rcases processLevel_levelBlock env L hnd fuel k d st st' tr hc h
    (levelOf e1) pid0 hfmem with ⟨syncs, dels, hblk, hsy, hmapt, hdel⟩
  have hin : ∀ e, e ∈ tr → isPageSync e = true → levelOf e = levelOf e1 →
      e ∈ syncs := by
    intro e he hse hle
    have hef : e ∈ tr.filter (fun e3 => levelOf e3 == levelOf e1) :=
      List.mem_filter.mpr ⟨he, by simp [hle]⟩
    rw [hblk] at hef
    rcases List.mem_cons.mp hef with rfl | hef2
    · simp [isPageSync] at hse
    · rcases List.mem_append.mp hef2 with hss | hdd
      · exact hss
      · rcases hdel e hdd with ⟨i2, rfl⟩
        simp [isPageSync] at hse
  have he1s := hin e1 he1 hs1 rfl
  have he2s := hin e2 he2 hs2 hlev
  have h2le := two_mem_countP (fun e => localTitleOf e == (some t : Option String))
    he1s he2s hne (by simp [hl1]) (by simp [hl2])
  have hndPB : ((pagesByParent L (levelOf e1)).map (fun p => p.title)).Nodup :=
    List.Sublist.nodup (List.Sublist.map _ (List.filter_sublist _)) hnd
  have hle1 := nodup_title_countP_le_one hndPB t
  have hA : 2 ≤ (syncs.map localTitleOf).countP
      (fun x => x == (some t : Option String)) := by
    rw [List.countP_map]
    exact h2le
  rw [hmapt, List.countP_map] at hA
  have hA2 : 2 ≤ (pagesByParent L (levelOf e1)).countP
      (fun p => some p.title == (some t : Option String)) := hA
  omega

theorem processLevel_parentId (env : Env) (L : List LocalPage)
    (hnd : (L.map (fun p => p.title)).Nodup)
    (hmt : ∀ pid r, r ∈ env.children pid → ∀ q, q ∈ L →
      q.meta.path = r.path → q.title = r.title)
    (hids : ∀ pid r, r ∈ env.children pid → r.id ≠ 0) :
    ∀ (fuel : Nat) (k : Option String) (d : Nat) (st st' : EngSt) (tr : List Event),
    Chain L k d → 1 ≤ st.nextId →
    processLevel env L fuel k st = some (st', tr) →
    ∀ (t : String) (pid2 : Option Nat), Event.fetch (some t) pid2 ∈ tr →
    (some t : Option String) ≠ k →
    ∃ e i, e ∈ tr ∧ isPageSync e = true ∧ localTitleOf e = some t ∧
      syncIdOf e = some i ∧ pid2 = some i := by
  intro fuel
  induction fuel with
  | zero => intro k d st st' tr hc hn h; simp [processLevel] at h
  | succ fuel ih =>
    intro k d st st' tr hc hn h t pid2 hmemf htk
    rcases processLevel_succ_inv env L fuel k st st' tr h with
      ⟨st1, evs, st2, cevs, h1, h2, rfl, rfl⟩
    have hevs := syncLevel_events h1
    have hfc : Event.fetch (some t) pid2 ∈ cevs := by
      rcases List.mem_append.mp hmemf with hh | hcc
      · rcases List.mem_cons.mp hh with heq | hee
        · exact absurd (Event.fetch.inj heq).1 htk
        · exact absurd rfl ((hevs.1 _ hee).2 _ _)
      · exact hcc
    have hndps : ((pagesByParent L k).map (fun p => p.title)).Nodup :=
      List.Sublist.nodup (List.Sublist.map _ (List.filter_sublist _)) hnd
    have hinv0 : ∀ t' ∈ ((pagesByParent L k).filter
        (fun p => hasKids L p.title)).map (fun p => p.title),
        ∃ e i, e ∈ evs ∧ isPageSync e = true ∧ localTitleOf e = some t' ∧
          syncIdOf e = some i ∧ st1.synced.lookup (some t') = some i := by
      intro t' ht'
      rcases children_facts2 L k t' ht' with ⟨p', hp'PB, hp'L, rfl, hp'k, hp'ne⟩
      rcases level_lookup hndps
        (fun r hr q hq hqr => hmt (st.synced.lookup k) r hr q
          (List.mem_of_mem_filter
            (show q ∈ List.filter (fun p2 => normKey p2 == k) L from hq)) hqr)
        (fun r hr => hids (st.synced.lookup k) r hr) hn h1 p' hp'PB hp'ne with
        ⟨e, i, he, hsy, hlt, hsid, hlk⟩
      refine ⟨e, i, he, hsy, hlt, hsid, ?_⟩
      rw [(syncLevel_spec _ _ _ _ _ _ h1).1]
      exact lookup_append_some hlk
    have hgo : ∀ (ts2 : List String) (stA stB : EngSt) (evsC : List Event),
        (∀ t' ∈ ts2, ∃ p, p ∈ L ∧ p.title = t' ∧ normKey p = k) →
        (∀ t' ∈ ts2, ∃ e i, e ∈ evs ∧ isPageSync e = true ∧
          localTitleOf e = some t' ∧ syncIdOf e = some i ∧
          stA.synced.lookup (some t') = some i) →
        1 ≤ stA.nextId →
        goChildren (processLevel env L fuel) ts2 stA = some (stB, evsC) →
        ∀ (t3 : String) (pid3 : Option Nat), Event.fetch (some t3) pid3 ∈ evsC →
        ∃ e i, (e ∈ evs ∨ e ∈ evsC) ∧ isPageSync e = true ∧
          localTitleOf e = some t3 ∧ syncIdOf e = some i ∧ pid3 = some i := by
      intro ts2
      induction ts2 with
      | nil =>
        intro stA stB evsC _ _ _ hgc t3 pid3 hm3
        rcases goChildren_nil_inv _ _ _ _ hgc with ⟨rfl, rfl⟩
        cases hm3
      | cons t1 ts2 ihts =>
        intro stA stB evsC hmem hinv hnA hgc t3 pid3 hm3
        rcases goChildren_cons_inv _ _ _ _ _ _ hgc with
          ⟨stM, evs1, evs2, hcall, hrest, rfl⟩
        rcases hmem t1 (List.mem_cons_self _ _) with ⟨p, hpL, rfl, hpk⟩
        have hup := up_of_mem hnd hpL hpk
        have hchild := chain_of_mem hnd hpL hpk hc
        have hM := processLevel_synced env L fuel (some p.title) stA stM evs1 hcall
        have hch1 := (processLevel_keys env L hnd fuel (some p.title) (d + 1)
          stA stM evs1 hchild hcall).2
        have hinv' : ∀ t' ∈ ts2, ∃ e i, e ∈ evs ∧ isPageSync e = true ∧
            localTitleOf e = some t' ∧ syncIdOf e = some i ∧
            stM.synced.lookup (some t') = some i := by
          intro t' ht'
          rcases hinv t' (List.mem_cons_of_mem _ ht') with
            ⟨e, i, he, hsy, hlt, hsid, hlk⟩
          refine ⟨e, i, he, hsy, hlt, hsid, ?_⟩
          have hno : ∀ v, ((some t' : Option String), v) ∉ recsOf evs1 := by
            intro v hv
            rcases recsOf_mem_inv hv with ⟨e2, he2, hrec⟩
            rcases (processLevel_prov env L hmt fuel (some p.title)
              stA stM evs1 hcall e2 he2).2 t' v hrec with ⟨q, hqL, hqt, hqlev⟩
            rcases hmem t' (List.mem_cons_of_mem _ ht') with ⟨p2, hp2L, hp2t, hp2k⟩
            have hq' : q = p2 := title_inj hnd hqL hp2L (hqt.trans hp2t.symm)
            have hlevk : levelOf e2 = k := by
              rw [← hqlev, hq', hp2k]
            have hkfk : k ∈ fetchKeys evs1 := by
              have h3 := processLevel_evkeys env L fuel (some p.title)
                stA stM evs1 hcall e2 he2
              rw [hlevk] at h3
              exact h3
            rcases hch1 k hkfk with ⟨m, hm⟩
            have h0 := chain_no_cycle hc (upN_snoc hm hup)
            omega
          rw [hM.1, lookup_append_none hno]
          exact hlk
        rcases List.mem_append.mp hm3 with h31 | h32
        · by_cases ht3 : t3 = p.title
          · subst ht3
            rcases hinv p.title (List.mem_cons_self _ _) with
              ⟨e, i, he, hsy, hlt, hsid, hlk⟩
            have hps := processLevel_fetch_self env L hnd fuel (some p.title)
              (d + 1) stA stM evs1 hchild hcall pid3 h31
            refine ⟨e, i, Or.inl he, hsy, hlt, hsid, ?_⟩
            rw [hps]
            exact hlk
          · have hne3 : (some t3 : Option String) ≠ some p.title :=
              fun he => ht3 (Option.some.inj he)
            rcases ih (some p.title) (d + 1) stA stM evs1 hchild hnA hcall
              t3 pid3 h31 hne3 with ⟨e, i, he, hsy, hlt, hsid, hpe⟩
            exact ⟨e, i, Or.inr (List.mem_append.mpr (Or.inl he)),
              hsy, hlt, hsid, hpe⟩
        · have hnM : 1 ≤ stM.nextId := le_trans hnA hM.2
          rcases ihts stM stB evs2
            (fun t' ht' => hmem t' (List.mem_cons_of_mem _ ht')) hinv' hnM hrest
            t3 pid3 h32 with ⟨e, i, hor, hsy, hlt, hsid, hpe⟩
          rcases hor with hevsm | hevs2m
          · exact ⟨e, i, Or.inl hevsm, hsy, hlt, hsid, hpe⟩
          · exact ⟨e, i, Or.inr (List.mem_append.mpr (Or.inr hevs2m)),
              hsy, hlt, hsid, hpe⟩
    have hn1 : 1 ≤ st1.nextId := le_trans hn (syncLevel_spec _ _ _ _ _ _ h1).2.1
    rcases hgo _ st1 st' cevs (children_facts L hnd k).2 hinv0 hn1 h2 t pid2 hfc with
      ⟨e, i, hor, hsy, hlt, hsid, hpe⟩
    rcases hor with hevsm | hcevsm
    · exact ⟨e, i, List.mem_append.mpr (Or.inl (List.mem_cons_of_mem _ hevsm)),
        hsy, hlt, hsid, hpe⟩
    · exact ⟨e, i, List.mem_append.mpr (Or.inr hcevsm), hsy, hlt, hsid, hpe⟩

/-- C1: the claim as stated is false. The SyncedPageIndex record written
when a matched page's sync completes is keyed by the REMOTE title, so
when the remote title differs from the local title the child level's
lookup misses it: with a stale remote page `Old` stored under the local
page `A`'s source path, `A`'s sync completes as an update recording
remote id `5`, yet the level of `A`'s children is fetched with parent id
`none`, not the recorded `5`. -/
theorem c1_recorded_parent_refuted :
    ¬ (∀ (st' : EngSt) (tr : List Event),
        runEngine
          ⟨fun pid => match pid with
            | some 1 => [⟨5, "Old", "docs/a.md", "r"⟩]
            | _ => []⟩
          [⟨"A", ⟨"r", "docs/a.md", "h"⟩, none⟩,
           ⟨"B", ⟨"r", "docs/b.md", "h"⟩, some "A"⟩] 1 10 5 = some (st', tr) →
        ∀ (t : String) (pid2 : Option Nat), Event.fetch (some t) pid2 ∈ tr →
        ∀ e ∈ tr, isPageSync e = true → localTitleOf e = some t →
        pid2 = syncIdOf e) := by
  intro hall
  have h := hall ⟨[(some "B", 10), (some "Old", 5), (none, 1)], 11⟩
    [Event.fetch none (some 1), Event.updated none "A" "Old" (some 1) 5,
     Event.fetch (some "A") none, Event.created (some "A") "B" none 10]
    rfl "A" none (by decide)
    (Event.updated none "A" "Old" (some 1) 5) (by decide) rfl rfl
  exact Option.noConfusion h

/-- C1 (amended): in a successful run whose local titles are unique,
whose remote children agree with the matching local page on the title
(so index records are keyed by the local title), whose remote ids are
nonzero and whose fresh ids start at 1 or above, the root level is
fetched with the previously-synced home id recorded under the no-parent
key, and every non-root level's fetch carries exactly the remote id that
the sync of that level's parent page recorded in the SyncedPageIndex —
the parent's page-sync event exists in the trace, is unique for the
parent's title, and its id is the fetched parent id. -/
theorem c1_amended_parent_id (env : Env) (L : List LocalPage)
    (home n0 fuel : Nat) (st' : EngSt) (tr : List Event)
    (hnd : (L.map (fun p => p.title)).Nodup)
    (hmt : ∀ pid r, r ∈ env.children pid → ∀ q, q ∈ L →
      q.meta.path = r.path → q.title = r.title)
    (hids : ∀ pid r, r ∈ env.children pid → r.id ≠ 0)
    (hn0 : 1 ≤ n0)
    (hrun : runEngine env L home n0 fuel = some (st', tr)) :
    tr.get? 0 = some (Event.fetch none (some home)) ∧
    ∀ (t : String) (pid2 : Option Nat), Event.fetch (some t) pid2 ∈ tr →
      ∃ e i, e ∈ tr ∧ isPageSync e = true ∧ localTitleOf e = some t ∧
        syncIdOf e = some i ∧ pid2 = some i ∧
        ∀ e2 ∈ tr, isPageSync e2 = true → localTitleOf e2 = some t → e2 = e := by
  constructor
  · cases fuel with
    | zero => simp [runEngine, processLevel] at hrun
    | succ fuel =>
      rcases processLevel_succ_inv env L fuel none _ st' tr hrun with
        ⟨st1, evs, st2, cevs, h1, h2, rfl, rfl⟩
      rfl
  · intro t pid2 hmemf
    rcases processLevel_parentId env L hnd hmt hids fuel none 0
      { synced := [(none, home)], nextId := n0 } st' tr Chain.root hn0 hrun
      t pid2 hmemf (Option.some_ne_none t) with ⟨e, i, he, hsy, hlt, hsid, hpe⟩
    refine ⟨e, i, he, hsy, hlt, hsid, hpe, ?_⟩
    intro e2 he2 hs2 hl2
    exact pageSync_title_unique env L hnd hmt fuel none 0
      { synced := [(none, home)], nextId := n0 } st' tr Chain.root hrun
      t e2 e he2 he hs2 hsy hl2 hlt

/-- C1 witness: a two-level run with an empty remote store; the root is
fetched with the seeded home id 1, and the `A` level is fetched with
parent id 10, the id allocated and recorded by the unique sync of the
local page `A`. -/
theorem c1_amended_parent_id_witness :
    ([Event.fetch none (some 1), Event.created none "A" (some 1) 10,
      Event.fetch (some "A") (some 10),
      Event.created (some "A") "B" (some 10) 11].get? 0 =
        some (Event.fetch none (some 1))) ∧
    ∃ e i, e ∈ [Event.fetch none (some 1), Event.created none "A" (some 1) 10,
        Event.fetch (some "A") (some 10),
        Event.created (some "A") "B" (some 10) 11] ∧
      isPageSync e = true ∧ localTitleOf e = some "A" ∧
      syncIdOf e = some i ∧ (some 10 : Option Nat) = some i ∧
      ∀ e2 ∈ [Event.fetch none (some 1), Event.created none "A" (some 1) 10,
        Event.fetch (some "A") (some 10),
        Event.created (some "A") "B" (some 10) 11],
        isPageSync e2 = true → localTitleOf e2 = some "A" → e2 = e :=
  ⟨(c1_amended_parent_id ⟨fun _ => []⟩
      [⟨"A", ⟨"r", "docs/a.md", "h"⟩, none⟩, ⟨"B", ⟨"r", "docs/b.md", "h"⟩, some "A"⟩]
      1 10 3 ⟨[(some "B", 11), (some "A", 10), (none, 1)], 12⟩
      [Event.fetch none (some 1), Event.created none "A" (some 1) 10,
       Event.fetch (some "A") (some 10), Event.created (some "A") "B" (some 10) 11]
      (by decide) (fun pid r hr => absurd hr (List.not_mem_nil r))
      (fun pid r hr => absurd hr (List.not_mem_nil r)) (by decide) rfl).1,
   (c1_amended_parent_id ⟨fun _ => []⟩
      [⟨"A", ⟨"r", "docs/a.md", "h"⟩, none⟩, ⟨"B", ⟨"r", "docs/b.md", "h"⟩, some "A"⟩]
      1 10 3 ⟨[(some "B", 11), (some "A", 10), (none, 1)], 12⟩
      [Event.fetch none (some 1), Event.created none "A" (some 1) 10,
       Event.fetch (some "A") (some 10), Event.created (some "A") "B" (some 10) 11]
      (by decide) (fun pid r hr => absurd hr (List.not_mem_nil r))
      (fun pid r hr => absurd hr (List.not_mem_nil r)) (by decide) rfl).2
    "A" (some 10) (by decide)⟩

end DocsSync
